import Mathlib

/-!
# go-minesweeper: the board engine of `main.go`

A shallow embedding of `MineSweeperModel` and its methods.

* Go's `int` is modelled by `Int`.  Every index the program computes is a grid
  coordinate plus or minus one, and every counter is bounded by the number of
  allocated cells, so 64-bit wrap-around cannot happen there; the one place
  where an arbitrary field value is decremented (`calculateRemainingFlags`)
  wraps explicitly.
* A slice of slices is a `List (List α)`.  An indexing expression that would
  raise "index out of range" yields `none`, and so does every function that
  reaches it.
* `math/rand` is modelled by the list of raw values the generator hands out;
  `rand.Intn n` reduces a raw value modulo `n`.
* The recursion of `open` is bounded by a fuel argument; `Open` supplies one
  more than the area of the grid.
-/

namespace Minesweeper

/-- The struct `MineSweeperModel` (main.go, lines 10-21). -/
structure MineSweeperModel where
  Width : Int
  Height : Int
  NumberOfMines : Int
  Board : List (List Int)
  Flagged : List (List Bool)
  Opened : List (List Bool)
  IsGameOver : Bool
  IsWin : Bool
  CursorX : Int
  CursorY : Int
deriving DecidableEq, Repr

/-- The read `g[y][x]`: `none` when either index is out of range. -/
def getCell {α : Type} (g : List (List α)) (y x : Int) : Option α :=
  if y < 0 ∨ x < 0 then none
  else
    match g[y.toNat]? with
    | none => none
    | some row => row[x.toNat]?

/-- The write `g[y][x] = v`: `none` when either index is out of range. -/
def setCell {α : Type} (g : List (List α)) (y x : Int) (v : α) : Option (List (List α)) :=
  if y < 0 ∨ x < 0 then none
  else
    match g[y.toNat]? with
    | none => none
    | some row =>
      if x.toNat < row.length then some (g.set y.toNat (row.set x.toNat v)) else none

/-- The call `rand.Intn(n)` on the raw value `raw`: it panics when `n <= 0`. -/
def Intn (n : Int) (raw : Nat) : Option Int :=
  if n ≤ 0 then none else some ((raw : Int) % n)

/-- The scan of the 3x3 block around `(x, y)` in `countMines` (lines 61-77). -/
def countMines (m : MineSweeperModel) (x y : Int) : Option Int :=
  [y - 1, y, y + 1].foldlM (fun count i =>
    if i < 0 ∨ i ≥ m.Height then some count
    else
      [x - 1, x, x + 1].foldlM (fun count j =>
        if j < 0 ∨ j ≥ m.Width then some count
        else do
          let v ← getCell m.Board i j
          if v = -1 then some (count + 1) else some count) count) (0 : Int)

/-- The loop of `placeMines` (lines 79-89) from loop counter `i`, one pair of raw
random values per iteration; `none` when the values run out before the loop ends. -/
def placeMinesFrom : List (Nat × Nat) → Int → MineSweeperModel → Option MineSweeperModel
  | [], i, m => if i < m.NumberOfMines then none else some m
  | (rx, ry) :: rest, i, m =>
    if i < m.NumberOfMines then do
      let x ← Intn m.Width rx
      let y ← Intn m.Height ry
      let v ← getCell m.Board y x
      if v = -1 then placeMinesFrom rest (i - 1 + 1) m
      else do
        let b ← setCell m.Board y x (-1)
        placeMinesFrom rest (i + 1) { m with Board := b }
    else some m

/-- The method `placeMines`. -/
def placeMines (draws : List (Nat × Nat)) (m : MineSweeperModel) : Option MineSweeperModel :=
  placeMinesFrom draws 0 m

/-- The adjacency pass of `InitModel` (lines 45-52), in place, row by row. -/
def fillCounts (width height : Int) (m : MineSweeperModel) : Option MineSweeperModel :=
  (List.range height.toNat).foldlM (fun (s : MineSweeperModel) (i : Nat) =>
    (List.range width.toNat).foldlM (fun (s : MineSweeperModel) (j : Nat) => do
      let v ← getCell s.Board (i : Int) (j : Int)
      if v = -1 then some s
      else do
        let c ← countMines s (j : Int) (i : Int)
        let b ← setCell s.Board (i : Int) (j : Int) c
        some { s with Board := b }) s) m

/-- The state built by lines 24-43 of `InitModel`, before any mine is placed. -/
def emptyModel (width height numberOfMines : Int) : MineSweeperModel :=
  { Width := width, Height := height, NumberOfMines := numberOfMines,
    Board := List.replicate height.toNat (List.replicate width.toNat 0),
    Flagged := List.replicate height.toNat (List.replicate width.toNat false),
    Opened := List.replicate height.toNat (List.replicate width.toNat false),
    IsGameOver := false, IsWin := false, CursorX := 0, CursorY := 0 }

/-- The constructor `InitModel` (lines 23-54); `make` panics on a negative length. -/
def InitModel (draws : List (Nat × Nat)) (width height numberOfMines : Int) :
    Option MineSweeperModel :=
  if height < 0 then none
  else if 0 < height ∧ width < 0 then none
  else do
    let m ← placeMines draws (emptyModel width height numberOfMines)
    fillCounts width height m

/-- The recursive method `open` (lines 99-120); `open` is a reserved word of Lean.
The first argument bounds the depth of the recursion. -/
def openCell : Nat → MineSweeperModel → Int → Int → Option MineSweeperModel
  | 0, _, _, _ => none
  | fuel + 1, m, x, y => do
    let v ← getCell m.Board y x
    if v ≠ 0 then do
      let o ← setCell m.Opened y x true
      some { m with Opened := o }
    else do
      let o ← setCell m.Opened y x true
      [y - 1, y, y + 1].foldlM (fun m i =>
        if i < 0 ∨ i ≥ m.Height then some m
        else
          [x - 1, x, x + 1].foldlM (fun m j =>
            if j < 0 ∨ j ≥ m.Width then some m
            else do
              let b ← getCell m.Opened i j
              if b then some m else openCell fuel m j i) m) { m with Opened := o }

/-- The depth allowed to `open`: one more than the area of the grid. -/
def openFuel (m : MineSweeperModel) : Nat := (m.Height * m.Width).toNat + 1

/-- The method `Open` (lines 91-97). -/
def Open (m : MineSweeperModel) (x y : Int) : Option MineSweeperModel := do
  let v ← getCell m.Board y x
  if v = -1 then some { m with IsGameOver := true }
  else openCell (openFuel m) m x y

/-- The counting loop of `ToggleFlag` (lines 130-137); `&&` reads the board only
for a flagged cell. -/
def rightFlags (m : MineSweeperModel) : Option Int :=
  (List.range m.Height.toNat).foldlM (fun (rf : Int) (i : Nat) =>
    (List.range m.Width.toNat).foldlM (fun (rf : Int) (j : Nat) => do
      let f ← getCell m.Flagged (i : Int) (j : Int)
      if f then do
        let b ← getCell m.Board (i : Int) (j : Int)
        if b = -1 then some (rf + 1) else some rf
      else some rf) rf) (0 : Int)

/-- The method `ToggleFlag` (lines 122-142). -/
def ToggleFlag (m : MineSweeperModel) (x y : Int) : Option MineSweeperModel := do
  let o ← getCell m.Opened y x
  if o then some m
  else do
    let f ← getCell m.Flagged y x
    let fl ← setCell m.Flagged y x (!f)
    let m1 : MineSweeperModel := { m with Flagged := fl }
    let n ← rightFlags m1
    if n = m1.NumberOfMines then some { m1 with IsWin := true } else some m1

/-- The "open all" loop of `Update` (lines 183-187); the loop bounds `m.Height`
and `m.Width` are fields the loop never writes. -/
def openAll (m : MineSweeperModel) : Option MineSweeperModel :=
  (List.range m.Height.toNat).foldlM (fun (s : MineSweeperModel) (i : Nat) =>
    (List.range m.Width.toNat).foldlM (fun (s : MineSweeperModel) (j : Nat) => do
      let o ← setCell s.Opened (i : Int) (j : Int) true
      some { s with Opened := o }) s) m

/-- The messages `Update` distinguishes: a key press with its name, a window
resize, anything else. -/
inductive Msg where
  | key (name : String)
  | windowSize
  | other
deriving DecidableEq, Repr

/-- The command returned next to the model: `tea.Quit` or `nil`. -/
inductive Cmd where
  | quit
  | nil
deriving DecidableEq, Repr

/-- The value of `tea.KeySpace.String()` in bubbletea: a single blank. -/
def KeySpaceString : String := " "

/-- The method `Update` (lines 145-195). -/
def Update (m : MineSweeperModel) (msg : Msg) : Option (MineSweeperModel × Cmd) :=
  match msg with
  | Msg.key s =>
    if s = "q" ∨ s = "ctrl+c" then some (m, Cmd.quit)
    else if s = "up" ∨ s = "k" then
      some (if m.CursorY > 0 then { m with CursorY := m.CursorY - 1 } else m, Cmd.nil)
    else if s = "down" ∨ s = "j" then
      some (if m.CursorY < m.Height - 1 then { m with CursorY := m.CursorY + 1 } else m, Cmd.nil)
    else if s = "left" ∨ s = "h" then
      some (if m.CursorX > 0 then { m with CursorX := m.CursorX - 1 } else m, Cmd.nil)
    else if s = "right" ∨ s = "l" then
      some (if m.CursorX < m.Width - 1 then { m with CursorX := m.CursorX + 1 } else m, Cmd.nil)
    else if s = KeySpaceString then do
      let m1 ← Open m m.CursorX m.CursorY
      if m1.IsGameOver then some (m1, Cmd.quit) else some (m1, Cmd.nil)
    else if s = "f" then do
      let m1 ← ToggleFlag m m.CursorX m.CursorY
      if m1.IsWin then do
        let m2 ← openAll m1
        some (m2, Cmd.nil)
      else some (m1, Cmd.nil)
    else some (m, Cmd.nil)
  | Msg.windowSize => some (m, Cmd.nil)
  | Msg.other => some (m, Cmd.nil)

/-- The value of a 64-bit signed integer after wrap-around. -/
def wrap64 (z : Int) : Int := (z + 2 ^ 63) % 2 ^ 64 - 2 ^ 63

/-- The function `calculateRemainingFlags` (lines 197-207). -/
def calculateRemainingFlags (m : MineSweeperModel) : Option Int :=
  (List.range m.Height.toNat).foldlM (fun (r : Int) (i : Nat) =>
    (List.range m.Width.toNat).foldlM (fun (r : Int) (j : Nat) => do
      let f ← getCell m.Flagged (i : Int) (j : Int)
      if f then some (wrap64 (r - 1)) else some r) r) m.NumberOfMines

/-- A grid of `h` rows of `w` cells each. -/
def GridDims {α : Type} (g : List (List α)) (h w : Int) : Prop :=
  (g.length : Int) = h ∧ ∀ row ∈ g, (row.length : Int) = w

instance {α : Type} (g : List (List α)) (h w : Int) : Decidable (GridDims g h w) := by
  unfold GridDims; infer_instance

/-! ## Specification vocabulary -/

/-- The cell `(x, y)` lies inside the grid. -/
def InBounds (m : MineSweeperModel) (x y : Int) : Prop :=
  0 ≤ x ∧ x < m.Width ∧ 0 ≤ y ∧ y < m.Height

instance (m : MineSweeperModel) (x y : Int) : Decidable (InBounds m x y) := by
  unfold InBounds; infer_instance

/-- The three grids have `Height` rows of `Width` cells. -/
def WF (m : MineSweeperModel) : Prop :=
  GridDims m.Board m.Height m.Width ∧ GridDims m.Flagged m.Height m.Width ∧
    GridDims m.Opened m.Height m.Width

instance (m : MineSweeperModel) : Decidable (WF m) := by
  unfold WF; infer_instance

/-- The cell `(x, y)` holds the mine value `-1`. -/
def isMine (m : MineSweeperModel) (x y : Int) : Prop := getCell m.Board y x = some (-1)

instance (m : MineSweeperModel) (x y : Int) : Decidable (isMine m x y) := by
  unfold isMine; infer_instance

/-- The cell `(x, y)` is opened. -/
def isOpen (m : MineSweeperModel) (x y : Int) : Prop := getCell m.Opened y x = some true

instance (m : MineSweeperModel) (x y : Int) : Decidable (isOpen m x y) := by
  unfold isOpen; infer_instance

/-- The cell `(x, y)` is flagged. -/
def isFlagged (m : MineSweeperModel) (x y : Int) : Prop := getCell m.Flagged y x = some true

instance (m : MineSweeperModel) (x y : Int) : Decidable (isFlagged m x y) := by
  unfold isFlagged; infer_instance

/-- All cells of the grid, as (row, column) pairs. -/
def cells (m : MineSweeperModel) : Finset (Nat × Nat) :=
  Finset.range m.Height.toNat ×ˢ Finset.range m.Width.toNat

/-- The cells of the grid that hold a mine. -/
def mineCells (m : MineSweeperModel) : Finset (Nat × Nat) :=
  (cells m).filter (fun c => isMine m c.2 c.1)

/-- The number of cells of the grid that hold a mine. -/
def mineCount (m : MineSweeperModel) : Nat := (mineCells m).card

/-- The cells of the grid that hold a mine and carry a flag. -/
def flaggedMines (m : MineSweeperModel) : Finset (Nat × Nat) :=
  (cells m).filter (fun c => isFlagged m c.2 c.1 ∧ isMine m c.2 c.1)

/-- The 3x3 board with its only mine at `(2, 2)` and the counts `InitModel` gives. -/
def board33 : MineSweeperModel :=
  { emptyModel 3 3 1 with Board := [[0, 0, 0], [0, 1, 1], [0, 1, -1]] }

/-- The 2x2 board with its only mine at `(0, 0)` and the counts `InitModel` gives. -/
def board22 : MineSweeperModel :=
  { emptyModel 2 2 1 with Board := [[-1, 1], [1, 1]] }

/-- The eight Moore neighbours of `(x, y)`, as (x, y) pairs, in bounds or not. -/
def neighbours (x y : Int) : List (Int × Int) :=
  [(x - 1, y - 1), (x, y - 1), (x + 1, y - 1), (x - 1, y), (x + 1, y),
   (x - 1, y + 1), (x, y + 1), (x + 1, y + 1)]

/-- The number of mine cells among the in-bounds Moore neighbours of `(x, y)`. -/
def adjacentMines (m : MineSweeperModel) (x y : Int) : Nat :=
  (neighbours x y).countP (fun c => decide (InBounds m c.1 c.2 ∧ isMine m c.1 c.2))

/-- One when `(x, y)` is an in-bounds mine cell, zero otherwise. -/
def mineAt (m : MineSweeperModel) (x y : Int) : Int :=
  if InBounds m x y ∧ isMine m x y then 1 else 0

/-- The state of the adjacency pass: the board `b` has the mines of `m1`, and the
cells already visited (`done`) that are not mines hold their count. -/
def CountsUpTo (m1 : MineSweeperModel) (done : Int → Int → Prop) (s : MineSweeperModel) : Prop :=
  ∃ b, s = { m1 with Board := b } ∧ GridDims b m1.Height m1.Width ∧
    (∀ x y, getCell b y x = some (-1) ↔ isMine m1 x y) ∧
    ∀ x y, InBounds m1 x y → done x y → ¬ isMine m1 x y →
      getCell b y x = some (adjacentMines m1 x y : Int)

/-- The board after `placeMines` on the draws (5,5), (2,2), (0,0) of a 3x3 game
with two mines: the first and the third draw place a mine, the second collides. -/
def placed33 : MineSweeperModel :=
  { emptyModel 3 3 2 with Board := [[-1, 0, 0], [0, 0, 0], [0, 0, -1]] }

/-- The body of the inner loop of `open` for column `j` of row `i`, with the
recursive call as a parameter. -/
def openNeighbour (call : MineSweeperModel → Int → Int → Option MineSweeperModel) (i : Int)
    (m : MineSweeperModel) (j : Int) : Option MineSweeperModel :=
  if j < 0 ∨ j ≥ m.Width then some m
  else do
    let b ← getCell m.Opened i j
    if b then some m else call m j i

/-- The body of the outer loop of `open` for row `i`, with the recursive call as a
parameter. -/
def openRow (call : MineSweeperModel → Int → Int → Option MineSweeperModel) (x : Int)
    (m : MineSweeperModel) (i : Int) : Option MineSweeperModel :=
  if i < 0 ∨ i ≥ m.Height then some m
  else [x - 1, x, x + 1].foldlM (openNeighbour call i) m

/-- The cell `(x', y')` is one of the eight Moore neighbours of `(x, y)`. -/
def MooreAdjacent (x y x' y' : Int) : Prop :=
  (x', y') ≠ (x, y) ∧ x - 1 ≤ x' ∧ x' ≤ x + 1 ∧ y - 1 ≤ y' ∧ y' ≤ y + 1

instance (x y x' y' : Int) : Decidable (MooreAdjacent x y x' y') := by
  unfold MooreAdjacent; infer_instance

/-- The cell `(x2, y2)` is reachable from `(x, y)`: there is a chain of Moore-adjacent
in-bounds cells from `(x, y)` to `(x2, y2)` in which every cell before the last
stores the count zero. -/
inductive Reach (m : MineSweeperModel) : Int → Int → Int → Int → Prop
  | here (x y : Int) : InBounds m x y → Reach m x y x y
  | step (x y x1 y1 x2 y2 : Int) : InBounds m x y → getCell m.Board y x = some 0 →
      MooreAdjacent x y x1 y1 → Reach m x1 y1 x2 y2 → Reach m x y x2 y2

/-- The cells of the grid that are not opened. -/
def unopenedCells (m : MineSweeperModel) : Finset (Nat × Nat) :=
  (cells m).filter (fun c => getCell m.Opened (c.1 : Int) (c.2 : Int) = some false)

/-- The state `m'` is `m` with a well-formed Opened grid in which every cell
opened in `m` is still opened. -/
def Grows (m m' : MineSweeperModel) : Prop :=
  (∃ o, m' = { m with Opened := o } ∧ GridDims o m.Height m.Width) ∧
    ∀ x y, isOpen m x y → isOpen m' x y

/-- What a call `open(x, y)` from state `m` guarantees about its result `m'`: only
the Opened grid changes and it grows, `(x, y)` is opened, every newly opened cell
is reachable from `(x, y)`, and around `(x, y)` and around every newly opened cell
that stores zero all in-bounds neighbours are opened. -/
def OpenPost (m : MineSweeperModel) (x y : Int) (m' : MineSweeperModel) : Prop :=
  Grows m m' ∧ isOpen m' x y ∧
  (∀ x' y', isOpen m' x' y' → ¬ isOpen m x' y' → Reach m x y x' y') ∧
  (∀ x' y', InBounds m x' y' → ((y' = y ∧ x' = x) ∨ ¬ isOpen m x' y') → isOpen m' x' y' →
    getCell m.Board y' x' = some 0 →
    ∀ x2 y2, InBounds m x2 y2 → MooreAdjacent x' y' x2 y2 → isOpen m' x2 y2)

/-- The invariant of the two loops of `open(x, y)`, entered from state `m` with
`m1` the state right after `(x, y)` was marked: `done` tells which neighbours the
loops have passed. -/
def FillInv (m : MineSweeperModel) (x y : Int) (m1 : MineSweeperModel)
    (done : Int → Int → Prop) (s : MineSweeperModel) : Prop :=
  Grows m1 s ∧
  (∀ x' y', isOpen s x' y' → ¬ isOpen m x' y' → Reach m x y x' y') ∧
  (∀ x' y', InBounds m x' y' → ¬ isOpen m1 x' y' → isOpen s x' y' →
    getCell m.Board y' x' = some 0 →
    ∀ x2 y2, InBounds m x2 y2 → MooreAdjacent x' y' x2 y2 → isOpen s x2 y2) ∧
  (∀ x' y', InBounds m x' y' → done x' y' → isOpen s x' y')

/-- Every cell of the grid that is not a mine stores the number of mines among
its in-bounds Moore neighbours. -/
def CountsCorrect (m : MineSweeperModel) : Prop :=
  ∀ x y, InBounds m x y → ¬ isMine m x y →
    getCell m.Board y x = some (adjacentMines m x y : Int)

/-- Around every opened cell that stores zero, all in-bounds neighbours are opened. -/
def OpenedClosed (m : MineSweeperModel) : Prop :=
  ∀ x y, InBounds m x y → isOpen m x y → getCell m.Board y x = some 0 →
    ∀ x2 y2, InBounds m x2 y2 → MooreAdjacent x y x2 y2 → isOpen m x2 y2

/-- The states of a game: those `InitModel` returns on valid parameters, and those
`Update` returns from them. -/
inductive Reachable : MineSweeperModel → Prop
  | init (draws : List (Nat × Nat)) (w h n : Int) (m : MineSweeperModel) :
      0 < w → 0 < h → 0 ≤ n → n ≤ w * h → InitModel draws w h n = some m → Reachable m
  | step (m : MineSweeperModel) (msg : Msg) (m' : MineSweeperModel) (cmd : Cmd) :
      Reachable m → Update m msg = some (m', cmd) → Reachable m'

/-- The 1x1 game whose only cell is a mine, after the flag key was pressed: the
flag wins the game and the "open all" loop opens the mine. -/
def won11 : MineSweeperModel :=
  { emptyModel 1 1 1 with
    Board := [[-1]], Flagged := [[true]], Opened := [[true]], IsWin := true }

/-- The 2x1 game with its mine at `(1, 0)`, after the flag key was pressed on `(0, 0)`. -/
def flagged21 : MineSweeperModel :=
  { emptyModel 2 1 1 with Board := [[1, -1]], Flagged := [[true, false]] }

/-- The 3x3 board with its mine at `(2, 2)` and a flag on the cell `(1, 1)`. -/
def flagged33 : MineSweeperModel :=
  { board33 with Flagged := [[false, false, false], [false, true, false], [false, false, false]] }

/-- The state `flagged21` after the reveal key was pressed on `(0, 0)`. -/
def opened21 : MineSweeperModel :=
  { flagged21 with Opened := [[true, false]] }

/-- The 3x3 board with the cursor on the middle cell. -/
def centre33 : MineSweeperModel := { board33 with CursorX := 1, CursorY := 1 }

/-- The 3x3 board with the cursor on the mine at `(2, 2)`. -/
def onMine33 : MineSweeperModel := { board33 with CursorX := 2, CursorY := 2 }

/-- The cells of the grid that carry a flag. -/
def flaggedCells (m : MineSweeperModel) : Finset (Nat × Nat) :=
  (cells m).filter (fun c => isFlagged m c.2 c.1)

/-- The 2x2 board with one mine and two flags. -/
def twoFlags22 : MineSweeperModel :=
  { board22 with Flagged := [[true, true], [false, false]] }

/-- The states of a game constructed with `width > 0` and `height > 0`, whatever the
mine count: those `InitModel` returns, and those `Update` returns from them. -/
inductive ReachableWH : MineSweeperModel → Prop
  | init (draws : List (Nat × Nat)) (w h n : Int) (m : MineSweeperModel) :
      0 < w → 0 < h → InitModel draws w h n = some m → ReachableWH m
  | step (m : MineSweeperModel) (msg : Msg) (m' : MineSweeperModel) (cmd : Cmd) :
      ReachableWH m → Update m msg = some (m', cmd) → ReachableWH m'

/-- The 2x1 game with its mine at `(1, 0)` as `InitModel` returns it. -/
def start21 : MineSweeperModel := { emptyModel 2 1 1 with Board := [[1, -1]] }

/-- The 2x1 game after the key `right` was pressed. -/
def right21 : MineSweeperModel := { start21 with CursorX := 1 }

/-- Every cell of the grid is opened. -/
def AllOpen (m : MineSweeperModel) : Prop := ∀ x y, InBounds m x y → isOpen m x y

/-- Every mine cell of the grid is flagged. -/
def AllMinesFlagged (m : MineSweeperModel) : Prop :=
  ∀ x y, InBounds m x y → isMine m x y → isFlagged m x y

/-- The invariant of a game with valid parameters: the grids are well-formed, the
opened set is closed around its zero cells, the counts are correct, the board has
`NumberOfMines` mines, a won game has every cell opened and every mine flagged, a
game with a mine and all mines flagged is won, and only a won game has an opened
mine. -/
def GameInv (m : MineSweeperModel) : Prop :=
  WF m ∧ OpenedClosed m ∧ CountsCorrect m ∧ (mineCount m : Int) = m.NumberOfMines ∧
  (m.IsWin = true → AllOpen m ∧ AllMinesFlagged m) ∧
  (1 ≤ m.NumberOfMines → AllMinesFlagged m → m.IsWin = true) ∧
  (∀ x y, isMine m x y → isOpen m x y → m.IsWin = true)

/-- The three outcomes of a game. -/
inductive Status where
  | InProgress
  | Lost
  | Won
deriving DecidableEq, Repr

/-- The status as `View` reports it (lines 220-224): "Game Over" when `IsGameOver`,
otherwise "You Win" when `IsWin`, otherwise nothing. -/
def status (m : MineSweeperModel) : Status :=
  if m.IsGameOver then Status.Lost else if m.IsWin then Status.Won else Status.InProgress

/-- The 1x1 game without a mine, as `InitModel` returns it. -/
def zero11 : MineSweeperModel := emptyModel 1 1 0

/-- A sequence of messages given to `Update` one after the other, each on the state
the previous one returned. -/
def runUpdates (m : MineSweeperModel) (msgs : List Msg) : Option MineSweeperModel :=
  msgs.foldlM (fun s msg => (Update s msg).map Prod.fst) m

/-- The state `s` has every cell opened, the cursor in bounds, and the dimensions,
mine count and Flagged grid of `m1`. -/
def Frozen (m1 s : MineSweeperModel) : Prop :=
  WF s ∧ AllOpen s ∧ InBounds s s.CursorX s.CursorY ∧ s.Flagged = m1.Flagged ∧
  s.Height = m1.Height ∧ s.Width = m1.Width ∧ s.NumberOfMines = m1.NumberOfMines

/-! ## Reading and writing one cell -/

theorem set_of_getElem? {α : Type} {l : List α} {n : Nat} {a : α} (h : l[n]? = some a) :
    l.set n a = l := by
  induction l generalizing n with
  | nil => simp
  | cons b l ih =>
    cases n with
    | zero =>
      simp only [List.getElem?_cons_zero, Option.some.injEq] at h
      simp [h]
    | succ n =>
      simp only [List.getElem?_cons_succ] at h
      simp [ih h]

theorem getCell_eq_some_iff {α : Type} (g : List (List α)) (y x : Int) (v : α) :
    getCell g y x = some v ↔
      0 ≤ y ∧ 0 ≤ x ∧ ∃ row, g[y.toNat]? = some row ∧ row[x.toNat]? = some v := by
  unfold getCell
  by_cases h : y < 0 ∨ x < 0
  · simp only [h, if_true]
    constructor
    · intro h'; cases h'
    · rintro ⟨h1, h2, _⟩; omega
  · simp only [h, if_false]
    have h1 : 0 ≤ y := by omega
    have h2 : 0 ≤ x := by omega
    cases hr : g[y.toNat]? with
    | none => simp
    | some row => simp [h1, h2]

theorem getCell_of_dims {α : Type} {g : List (List α)} {h w : Int} (hd : GridDims g h w)
    {y x : Int} (hy0 : 0 ≤ y) (hy : y < h) (hx0 : 0 ≤ x) (hx : x < w) :
    ∃ v, getCell g y x = some v := by
  obtain ⟨hl, hrow⟩ := hd
  have hyl : y.toNat < g.length := by omega
  have hxl : x.toNat < (g[y.toNat]).length := by
    have := hrow (g[y.toNat]) (List.getElem_mem _)
    omega
  refine ⟨(g[y.toNat])[x.toNat], ?_⟩
  rw [getCell_eq_some_iff]
  refine ⟨hy0, hx0, g[y.toNat], ?_, ?_⟩
  · exact List.getElem?_eq_getElem hyl
  · exact List.getElem?_eq_getElem hxl

theorem getCell_bounds {α : Type} {g : List (List α)} {h w : Int} (hd : GridDims g h w)
    {y x : Int} {v : α} (hv : getCell g y x = some v) :
    0 ≤ y ∧ y < h ∧ 0 ≤ x ∧ x < w := by
  obtain ⟨hl, hrow⟩ := hd
  rw [getCell_eq_some_iff] at hv
  obtain ⟨hy0, hx0, row, h1, h2⟩ := hv
  obtain ⟨hyl, rfl⟩ := List.getElem?_eq_some_iff.mp h1
  obtain ⟨hxl, _⟩ := List.getElem?_eq_some_iff.mp h2
  have := hrow (g[y.toNat]) (List.getElem_mem _)
  omega

theorem setCell_eq_some_iff {α : Type} (g : List (List α)) (y x : Int) (v : α)
    (g' : List (List α)) :
    setCell g y x v = some g' ↔
      0 ≤ y ∧ 0 ≤ x ∧ ∃ row, g[y.toNat]? = some row ∧ x.toNat < row.length ∧
        g' = g.set y.toNat (row.set x.toNat v) := by
  unfold setCell
  by_cases h : y < 0 ∨ x < 0
  · simp only [h, if_true]
    constructor
    · intro h'; cases h'
    · rintro ⟨h1, h2, _⟩; omega
  · simp only [h, if_false]
    have h1 : 0 ≤ y := by omega
    have h2 : 0 ≤ x := by omega
    cases hr : g[y.toNat]? with
    | none => simp
    | some row =>
      by_cases hx : x.toNat < row.length
      · simp only [hx, if_true, Option.some.injEq]
        constructor
        · intro h'; exact ⟨h1, h2, row, rfl, hx, h'.symm⟩
        · rintro ⟨_, _, row', hr', _, rfl⟩
          cases hr'; rfl
      · simp only [hx, if_false]
        constructor
        · intro h'; cases h'
        · rintro ⟨_, _, row', hr', hx', _⟩
          cases hr'; exact absurd hx' hx

theorem setCell_of_getCell {α : Type} {g : List (List α)} {y x : Int} {u : α}
    (hu : getCell g y x = some u) (v : α) : ∃ g', setCell g y x v = some g' := by
  rw [getCell_eq_some_iff] at hu
  obtain ⟨hy0, hx0, row, h1, h2⟩ := hu
  obtain ⟨hxl, _⟩ := List.getElem?_eq_some_iff.mp h2
  exact ⟨_, (setCell_eq_some_iff g y x v _).mpr ⟨hy0, hx0, row, h1, hxl, rfl⟩⟩

theorem getCell_of_setCell {α : Type} {g g' : List (List α)} {y x : Int} {v : α}
    (hs : setCell g y x v = some g') : ∃ u, getCell g y x = some u := by
  rw [setCell_eq_some_iff] at hs
  obtain ⟨hy0, hx0, row, h1, hxl, _⟩ := hs
  exact ⟨row[x.toNat], (getCell_eq_some_iff g y x _).mpr
    ⟨hy0, hx0, row, h1, List.getElem?_eq_getElem hxl⟩⟩

theorem getCell_setCell {α : Type} {g g' : List (List α)} {y x : Int} {v : α}
    (hs : setCell g y x v = some g') (y' x' : Int) :
    getCell g' y' x' = if y' = y ∧ x' = x then some v else getCell g y' x' := by
  rw [setCell_eq_some_iff] at hs
  obtain ⟨hy0, hx0, row, h1, hxl, rfl⟩ := hs
  obtain ⟨hyl, hrow⟩ := List.getElem?_eq_some_iff.mp h1
  unfold getCell
  by_cases hneg : y' < 0 ∨ x' < 0
  · have : ¬ (y' = y ∧ x' = x) := by omega
    simp [hneg, this]
  · simp only [hneg, if_false]
    by_cases hyy : y' = y
    · subst hyy
      rw [List.getElem?_set_self hyl]
      by_cases hxx : x' = x
      · subst hxx
        simp [List.getElem?_set_self hxl]
      · have hne : x.toNat ≠ x'.toNat := by omega
        simp [hxx, h1, List.getElem?_set_ne hne]
    · have hne : y.toNat ≠ y'.toNat := by omega
      simp [hyy, List.getElem?_set_ne hne]

theorem setCell_dims {α : Type} {g g' : List (List α)} {y x : Int} {v : α}
    (hs : setCell g y x v = some g') {h w : Int} (hd : GridDims g h w) : GridDims g' h w := by
  rw [setCell_eq_some_iff] at hs
  obtain ⟨hy0, hx0, row, h1, hxl, rfl⟩ := hs
  obtain ⟨hl, hrow⟩ := hd
  refine ⟨by simpa using hl, ?_⟩
  intro r hr
  rcases List.mem_or_eq_of_mem_set hr with h | h
  · exact hrow r h
  · subst h
    rw [List.length_set]
    exact hrow row (List.getElem?_mem h1)

theorem setCell_same {α : Type} {g : List (List α)} {y x : Int} {v : α}
    (hv : getCell g y x = some v) : setCell g y x v = some g := by
  rw [getCell_eq_some_iff] at hv
  obtain ⟨hy0, hx0, row, h1, h2⟩ := hv
  obtain ⟨hxl, hxv⟩ := List.getElem?_eq_some_iff.mp h2
  obtain ⟨hyl, hrow⟩ := List.getElem?_eq_some_iff.mp h1
  rw [setCell_eq_some_iff]
  refine ⟨hy0, hx0, row, h1, hxl, ?_⟩
  rw [set_of_getElem? h2, set_of_getElem? h1]

theorem setCell_setCell {α : Type} {g g1 : List (List α)} {y x : Int} {u v : α}
    (hu : getCell g y x = some u) (hs : setCell g y x v = some g1) :
    setCell g1 y x u = some g := by
  rw [getCell_eq_some_iff] at hu
  obtain ⟨hy0, hx0, row, h1, h2⟩ := hu
  obtain ⟨hxl, hxv⟩ := List.getElem?_eq_some_iff.mp h2
  obtain ⟨hyl, hrow⟩ := List.getElem?_eq_some_iff.mp h1
  rw [setCell_eq_some_iff] at hs
  obtain ⟨_, _, row', h1', hxl', rfl⟩ := hs
  rw [h1] at h1'
  cases h1'
  rw [setCell_eq_some_iff]
  refine ⟨hy0, hx0, row.set x.toNat v, ?_, ?_, ?_⟩
  · rw [List.getElem?_set_self hyl]
  · simpa using hxl
  · rw [List.set_set, List.set_set, set_of_getElem? h2, set_of_getElem? h1]

/-! ## Loops that never fail -/

theorem foldlM_visited_aux {σ α : Type} (f : σ → α → Option σ) (P : List α → σ → Prop)
    (l : List α)
    (hstep : ∀ pre a post s, l = pre ++ a :: post → P pre s →
      ∃ s', f s a = some s' ∧ P (pre ++ [a]) s') :
    ∀ (rest pre : List α) (s : σ), l = pre ++ rest → P pre s →
      ∃ s', rest.foldlM f s = some s' ∧ P l s' := by
  intro rest
  induction rest with
  | nil =>
    intro pre s hl hp
    refine ⟨s, rfl, ?_⟩
    rw [hl, List.append_nil]
    exact hp
  | cons a rest ih =>
    intro pre s hl hp
    obtain ⟨s1, h1, hp1⟩ := hstep pre a rest s hl hp
    obtain ⟨s2, h2, hp2⟩ := ih (pre ++ [a]) s1 (by simp [hl]) hp1
    refine ⟨s2, ?_, hp2⟩
    rw [List.foldlM_cons, h1]
    exact h2

/-- A loop over a list that never fails and keeps an invariant indexed by the
items already visited. -/
theorem foldlM_visited {σ α : Type} (f : σ → α → Option σ) (P : List α → σ → Prop)
    (l : List α) (s : σ) (h0 : P [] s)
    (hstep : ∀ pre a post s, l = pre ++ a :: post → P pre s →
      ∃ s', f s a = some s' ∧ P (pre ++ [a]) s') :
    ∃ s', l.foldlM f s = some s' ∧ P l s' :=
  foldlM_visited_aux f P l hstep l [] s rfl h0

/-- A counting loop `for i := 0; i < n; i++` that never fails and keeps an
invariant indexed by the loop counter. -/
theorem foldlM_range {σ : Type} (f : σ → Nat → Option σ) (P : Nat → σ → Prop)
    (n : Nat) (s : σ) (h0 : P 0 s)
    (hstep : ∀ i s, i < n → P i s → ∃ s', f s i = some s' ∧ P (i + 1) s') :
    ∃ s', (List.range n).foldlM f s = some s' ∧ P n s' := by
  induction n with
  | zero => exact ⟨s, rfl, h0⟩
  | succ n ih =>
    obtain ⟨s1, h1, hp1⟩ := ih (fun i s hi hp => hstep i s (Nat.lt_succ_of_lt hi) hp)
    obtain ⟨s2, h2, hp2⟩ := hstep n s1 (Nat.lt_succ_self n) hp1
    refine ⟨s2, ?_, hp2⟩
    rw [List.range_succ, List.foldlM_append, h1]
    simp [h2]

theorem card_filter_product (A B : Finset Nat) (p : Nat → Nat → Prop)
    [∀ i j, Decidable (p i j)] :
    ((A ×ˢ B).filter (fun q => p q.1 q.2)).card = ∑ a in A, (B.filter (p a)).card := by
  rw [Finset.card_filter, Finset.sum_product]
  refine Finset.sum_congr rfl ?_
  intro a _
  rw [Finset.card_filter]

theorem card_filter_range_succ (n : Nat) (p : Nat → Prop) [DecidablePred p] :
    ((Finset.range (n + 1)).filter p).card =
      ((Finset.range n).filter p).card + (if p n then 1 else 0) := by
  rw [Finset.card_filter, Finset.card_filter, Finset.sum_range_succ]

/-- A pair of nested counting loops that applies `g` to the accumulator once for
every cell satisfying `p` applies it as many times as there are such cells. -/
theorem countLoop {σ : Type} (H W : Nat) (body : σ → Nat → Nat → Option σ) (g : σ → σ)
    (p : Nat → Nat → Prop) [∀ i j, Decidable (p i j)]
    (hbody : ∀ i j c, i < H → j < W → body c i j = some (if p i j then g c else c))
    (c0 : σ) :
    (List.range H).foldlM (fun c i => (List.range W).foldlM (fun c j => body c i j) c) c0
      = some (g^[((Finset.range H ×ˢ Finset.range W).filter (fun q => p q.1 q.2)).card] c0) := by
  have inner : ∀ i, i < H → ∀ c, (List.range W).foldlM (fun c j => body c i j) c
      = some (g^[((Finset.range W).filter (p i)).card] c) := by
    intro i hi c
    obtain ⟨s', h1, h2⟩ := foldlM_range (fun c j => body c i j)
      (fun j s => s = g^[((Finset.range j).filter (p i)).card] c) W c (by simp)
      (by
        intro j s hj hs
        refine ⟨_, hbody i j s hi hj, ?_⟩
        beta_reduce
        rw [card_filter_range_succ, hs]
        by_cases hp : p i j
        · simp [hp, Function.iterate_succ_apply']
        · simp [hp])
    rw [h1, h2]
  obtain ⟨s', h1, h2⟩ := foldlM_range
    (fun c i => (List.range W).foldlM (fun c j => body c i j) c)
    (fun i s => s = g^[((Finset.range i ×ˢ Finset.range W).filter (fun q => p q.1 q.2)).card] c0)
    H c0 (by simp)
    (by
      intro i s hi hs
      refine ⟨_, inner i hi s, ?_⟩
      beta_reduce
      rw [card_filter_product, Finset.sum_range_succ, ← card_filter_product, hs,
        Nat.add_comm, Function.iterate_add_apply])
  rw [h1, h2]

theorem iterate_succ_int (n : Nat) (c : Int) : (fun z : Int => z + 1)^[n] c = c + n := by
  induction n generalizing c with
  | zero => simp
  | succ n ih =>
    rw [Function.iterate_succ_apply, ih]
    push_cast
    ring

/-! ## ToggleFlag and the win condition -/

theorem getCell_of_inBounds {α : Type} {g : List (List α)} {m : MineSweeperModel}
    (hd : GridDims g m.Height m.Width) {x y : Int} (hb : InBounds m x y) :
    ∃ v, getCell g y x = some v :=
  getCell_of_dims hd hb.2.2.1 hb.2.2.2 hb.1 hb.2.1

theorem inBounds_of_getCell {α : Type} {g : List (List α)} {m : MineSweeperModel}
    (hd : GridDims g m.Height m.Width) {x y : Int} {v : α} (hv : getCell g y x = some v) :
    InBounds m x y := by
  obtain ⟨h1, h2, h3, h4⟩ := getCell_bounds hd hv
  exact ⟨h3, h4, h1, h2⟩

theorem inBounds_of_mem_cells {m : MineSweeperModel} {c : Nat × Nat} (hc : c ∈ cells m) :
    InBounds m (c.2 : Int) (c.1 : Int) := by
  unfold cells at hc
  rw [Finset.mem_product, Finset.mem_range, Finset.mem_range] at hc
  unfold InBounds
  omega

theorem mem_cells_of_inBounds {m : MineSweeperModel} {x y : Int} (hb : InBounds m x y) :
    (y.toNat, x.toNat) ∈ cells m := by
  unfold cells
  rw [Finset.mem_product, Finset.mem_range, Finset.mem_range]
  unfold InBounds at hb
  constructor <;> simp only <;> omega

theorem rightFlags_eq (m : MineSweeperModel) (hwf : WF m) :
    rightFlags m = some ((flaggedMines m).card : Int) := by
  unfold rightFlags
  have h := countLoop m.Height.toNat m.Width.toNat
    (fun (rf : Int) i j => do
      let f ← getCell m.Flagged i j
      if f then do
        let b ← getCell m.Board i j
        if b = -1 then some (rf + 1) else some rf
      else some rf)
    (fun z : Int => z + 1)
    (fun i j => isFlagged m j i ∧ isMine m j i)
    (by
      intro i j c hi hj
      have hb : InBounds m (j : Int) (i : Int) := by unfold InBounds; omega
      obtain ⟨f, hf⟩ := getCell_of_inBounds hwf.2.1 hb
      obtain ⟨b, hbd⟩ := getCell_of_inBounds hwf.1 hb
      simp only [hf, hbd, isFlagged, isMine, Option.bind_eq_bind, Option.some_bind,
        Option.some.injEq]
      cases f <;> by_cases hb1 : b = -1 <;> simp [hb1])
    0
  rw [h, iterate_succ_int]
  simp [flaggedMines, cells]

theorem flaggedMines_subset (m : MineSweeperModel) : flaggedMines m ⊆ mineCells m := by
  intro c hc
  unfold flaggedMines at hc
  unfold mineCells
  rw [Finset.mem_filter] at hc ⊢
  exact ⟨hc.1, hc.2.2⟩

/-- Under the well-formedness of the grids, the flagged mines are all the mines
exactly when every mine cell is flagged. -/
theorem card_flaggedMines_eq_iff (m : MineSweeperModel) :
    (flaggedMines m).card = mineCount m ↔
      ∀ x y, InBounds m x y → isMine m x y → isFlagged m x y := by
  unfold mineCount
  constructor
  · intro h x y hb hm
    have heq : flaggedMines m = mineCells m :=
      Finset.eq_of_subset_of_card_le (flaggedMines_subset m) (le_of_eq h.symm)
    have hx : ((x.toNat : Nat) : Int) = x := Int.toNat_of_nonneg hb.1
    have hy : ((y.toNat : Nat) : Int) = y := Int.toNat_of_nonneg hb.2.2.1
    have hmem : (y.toNat, x.toNat) ∈ mineCells m := by
      unfold mineCells
      rw [Finset.mem_filter]
      refine ⟨mem_cells_of_inBounds hb, ?_⟩
      simp only [hx, hy]
      exact hm
    rw [← heq] at hmem
    unfold flaggedMines at hmem
    rw [Finset.mem_filter] at hmem
    simpa only [hx, hy] using hmem.2.1
  · intro h
    congr 1
    apply Finset.Subset.antisymm (flaggedMines_subset m)
    intro c hc
    unfold mineCells at hc
    unfold flaggedMines
    rw [Finset.mem_filter] at hc ⊢
    exact ⟨hc.1, h _ _ (inBounds_of_mem_cells hc.1) hc.2, hc.2⟩

/-- What `ToggleFlag` does on an unopened cell of a well-formed state. -/
theorem ToggleFlag_unopened (m : MineSweeperModel) (x y : Int) (hwf : WF m)
    (ho : getCell m.Opened y x = some false) :
    ∃ f fl, getCell m.Flagged y x = some f ∧ setCell m.Flagged y x (!f) = some fl ∧
      WF { m with Flagged := fl } ∧
      ToggleFlag m x y = some { m with
        Flagged := fl
        IsWin := m.IsWin ||
          decide (((flaggedMines { m with Flagged := fl }).card : Int) = m.NumberOfMines) } := by
  have hb : InBounds m x y := inBounds_of_getCell hwf.2.2 ho
  obtain ⟨f, hf⟩ := getCell_of_inBounds hwf.2.1 hb
  obtain ⟨fl, hfl⟩ := setCell_of_getCell hf (!f)
  have hwf1 : WF { m with Flagged := fl } := ⟨hwf.1, setCell_dims hfl hwf.2.1, hwf.2.2⟩
  refine ⟨f, fl, hf, hfl, hwf1, ?_⟩
  unfold ToggleFlag
  simp only [ho, hf, hfl, rightFlags_eq _ hwf1, Option.bind_eq_bind, Option.some_bind,
    Bool.false_eq_true, if_false]
  by_cases hc : ((flaggedMines { m with Flagged := fl }).card : Int) = m.NumberOfMines
  · simp [hc]
  · simp [hc]

theorem Open_of_mine (m : MineSweeperModel) (x y : Int) (hmine : isMine m x y) :
    Open m x y = some { m with IsGameOver := true } := by
  unfold isMine at hmine
  unfold Open
  simp [hmine]

/-- C3: `Open(x, y)` on a mine cell sets `IsGameOver` and changes nothing else: the
Opened grid, the Flagged grid, the Board, the cursor and `IsWin` are as before. -/
theorem Open_mine (m : MineSweeperModel) (x y : Int) (hmine : isMine m x y) :
    Open m x y = some { m with IsGameOver := true } :=
  Open_of_mine m x y hmine

theorem Open_mine_witness :
    isMine board33 2 2 ∧ Open board33 2 2 = some { board33 with IsGameOver := true } :=
  ⟨by decide, Open_mine board33 2 2 (by decide)⟩

theorem ToggleFlag_of_opened (m : MineSweeperModel) (x y : Int) (ho : isOpen m x y) :
    ToggleFlag m x y = some m := by
  unfold isOpen at ho
  unfold ToggleFlag
  simp [ho]

/-- C10: `ToggleFlag(x, y)` on an in-bounds cell that is already opened returns the
state unchanged: the Flagged grid, `IsWin` and every other field are as before. -/
theorem ToggleFlag_opened (m : MineSweeperModel) (x y : Int) (ho : isOpen m x y) :
    ToggleFlag m x y = some m :=
  ToggleFlag_of_opened m x y ho

theorem ToggleFlag_opened_witness :
    isOpen { board33 with Opened := [[true, false, false], [false, false, false], [false, false, false]] } 0 0 ∧
    ToggleFlag { board33 with Opened := [[true, false, false], [false, false, false], [false, false, false]] } 0 0 =
      some { board33 with Opened := [[true, false, false], [false, false, false], [false, false, false]] } :=
  ⟨by decide, ToggleFlag_opened _ 0 0 (by decide)⟩

theorem getCell_false_of_not_open {m : MineSweeperModel} (hwf : WF m) {x y : Int}
    (hb : InBounds m x y) (ho : ¬ isOpen m x y) : getCell m.Opened y x = some false := by
  obtain ⟨v, hv⟩ := getCell_of_inBounds hwf.2.2 hb
  cases v with
  | false => exact hv
  | true => exact absurd hv ho

/-- C9: on a state whose board has exactly `NumberOfMines` mines and whose `IsWin`
is false, `ToggleFlag` on an unopened cell ends with `IsWin` true exactly when
every mine cell is flagged afterwards. -/
theorem ToggleFlag_win_iff (m : MineSweeperModel) (x y : Int) (hwf : WF m)
    (hcount : (mineCount m : Int) = m.NumberOfMines) (hwin : m.IsWin = false)
    (hb : InBounds m x y) (ho : ¬ isOpen m x y) :
    ∃ m', ToggleFlag m x y = some m' ∧
      (m'.IsWin = true ↔ ∀ x' y', InBounds m' x' y' → isMine m' x' y' → isFlagged m' x' y') := by
  obtain ⟨f, fl, _, _, _, htf⟩ :=
    ToggleFlag_unopened m x y hwf (getCell_false_of_not_open hwf hb ho)
  refine ⟨_, htf, ?_⟩
  have hmc : mineCount { m with Flagged := fl } = mineCount m := rfl
  rw [← card_flaggedMines_eq_iff, hwin]
  simp only [Bool.false_or, decide_eq_true_eq]
  rw [← hcount]
  constructor
  · intro h
    exact_mod_cast h
  · intro h
    exact_mod_cast h

theorem ToggleFlag_win_iff_witness :
    WF board22 ∧ (mineCount board22 : Int) = board22.NumberOfMines ∧ board22.IsWin = false ∧
    InBounds board22 0 0 ∧ ¬ isOpen board22 0 0 ∧
    ∃ m', ToggleFlag board22 0 0 = some m' ∧
      (m'.IsWin = true ↔ ∀ x' y', InBounds m' x' y' → isMine m' x' y' → isFlagged m' x' y') :=
  ⟨by decide, by decide, by decide, by decide, by decide,
    ToggleFlag_win_iff board22 0 0 (by decide) (by decide) (by decide) (by decide) (by decide)⟩

/-- C8, refuted: on the 2x2 board with its mine at `(0, 0)` and no flag, the first
`ToggleFlag(0, 0)` sets `IsWin`, and the second one gives back the Flagged grid
and one remaining flag but leaves `IsWin` true, where it was false at the start. -/
theorem ToggleFlag_twice_keeps_win :
    board22.IsWin = false ∧
    ToggleFlag board22 0 0 =
      some { board22 with Flagged := [[true, false], [false, false]], IsWin := true } ∧
    ToggleFlag { board22 with Flagged := [[true, false], [false, false]], IsWin := true } 0 0 =
      some { board22 with IsWin := true } ∧
    calculateRemainingFlags { board22 with IsWin := true } = some 1 := by
  decide

/-- C8, amended: on an unopened cell two calls of `ToggleFlag(x, y)` give back the
Flagged grid and every other field except `IsWin`; `IsWin` is never unset, and it
is true at the end exactly when it was true before or the count of flagged mines
equals `NumberOfMines` after the first call or after the second. -/
theorem ToggleFlag_twice (m : MineSweeperModel) (x y : Int) (hwf : WF m)
    (hb : InBounds m x y) (ho : ¬ isOpen m x y) :
    ∃ m1 m2, ToggleFlag m x y = some m1 ∧ ToggleFlag m1 x y = some m2 ∧
      m2 = { m with IsWin := m2.IsWin } ∧
      (m1.IsWin = true → m2.IsWin = true) ∧
      (m2.IsWin = true ↔ m.IsWin = true ∨ rightFlags m1 = some m.NumberOfMines ∨
        rightFlags m = some m.NumberOfMines) := by
  have ho' := getCell_false_of_not_open hwf hb ho
  obtain ⟨f, fl, hf, hfl, hwf1, htf⟩ := ToggleFlag_unopened m x y hwf ho'
  obtain ⟨f', fl', hf', hfl', hwf2, htf'⟩ :=
    ToggleFlag_unopened { m with
      Flagged := fl
      IsWin := m.IsWin ||
        decide (((flaggedMines { m with Flagged := fl }).card : Int) = m.NumberOfMines) }
      x y hwf1 ho'
  have hf'' : f' = !f := by
    have := getCell_setCell hfl y x
    simp only [and_self, if_true] at this
    rw [this] at hf'
    exact (Option.some.inj hf').symm
  subst hf''
  have hback : fl' = m.Flagged := by
    have := setCell_setCell hf hfl
    simp only [Bool.not_not] at hfl'
    rw [this] at hfl'
    exact (Option.some.inj hfl').symm
  subst hback
  refine ⟨_, _, htf, htf', rfl, ?_, ?_⟩
  · intro h
    simp only at h ⊢
    rw [h]
    rfl
  · have e1 : rightFlags { m with Flagged := fl } = rightFlags { m with
        Flagged := fl
        IsWin := m.IsWin ||
          decide (((flaggedMines { m with Flagged := fl }).card : Int) = m.NumberOfMines) } := rfl
    have e2 : flaggedMines { m with Flagged := m.Flagged } = flaggedMines m := rfl
    rw [← e1, rightFlags_eq _ hwf1, rightFlags_eq _ hwf]
    simp only [Bool.or_eq_true, decide_eq_true_eq, Option.some.injEq]
    constructor
    · rintro ((h | h) | h)
      · exact Or.inl h
      · exact Or.inr (Or.inl h)
      · exact Or.inr (Or.inr h)
    · rintro (h | h | h)
      · exact Or.inl (Or.inl h)
      · exact Or.inl (Or.inr h)
      · exact Or.inr h

theorem ToggleFlag_twice_witness :
    WF board22 ∧ InBounds board22 0 0 ∧ ¬ isOpen board22 0 0 ∧
    ∃ m1 m2, ToggleFlag board22 0 0 = some m1 ∧ ToggleFlag m1 0 0 = some m2 ∧
      m2 = { board22 with IsWin := m2.IsWin } ∧
      (m1.IsWin = true → m2.IsWin = true) ∧
      (m2.IsWin = true ↔ board22.IsWin = true ∨ rightFlags m1 = some board22.NumberOfMines ∨
        rightFlags board22 = some board22.NumberOfMines) :=
  ⟨by decide, by decide, by decide,
    ToggleFlag_twice board22 0 0 (by decide) (by decide) (by decide)⟩

/-! ## InitModel: mine placement and the adjacency pass -/

theorem emptyModel_WF (w h n : Int) (hh : ¬ h < 0) (hw : ¬ (0 < h ∧ w < 0)) :
    WF (emptyModel w h n) := by
  have key : ∀ v : Type, ∀ a : v,
      GridDims (List.replicate h.toNat (List.replicate w.toNat a)) h w := by
    intro v a
    refine ⟨?_, ?_⟩
    · rw [List.length_replicate]; omega
    · intro row hrow
      obtain ⟨hne, rfl⟩ := List.mem_replicate.mp hrow
      rw [List.length_replicate]
      omega
  exact ⟨key _ _, key _ _, key _ _⟩

theorem getCell_replicate {α : Type} (h w : Nat) (a u : α) (y x : Int)
    (hu : getCell (List.replicate h (List.replicate w a)) y x = some u) : u = a := by
  rw [getCell_eq_some_iff] at hu
  obtain ⟨_, _, row, h1, h2⟩ := hu
  have hr : row = List.replicate w a := (List.mem_replicate.mp (List.getElem?_mem h1)).2
  subst hr
  exact (List.mem_replicate.mp (List.getElem?_mem h2)).2

theorem mineCount_emptyModel (w h n : Int) : mineCount (emptyModel w h n) = 0 := by
  unfold mineCount mineCells
  rw [Finset.card_eq_zero, Finset.filter_eq_empty_iff]
  intro c _ hc
  have := getCell_replicate _ _ _ _ _ _ hc
  omega

/-- Turning a non-mine cell into a mine raises the number of mines by one. -/
theorem mineCount_setCell_mine (m : MineSweeperModel) (hwf : WF m) (x y : Int) (v : Int)
    (b : List (List Int)) (hv : getCell m.Board y x = some v) (hne : v ≠ -1)
    (hb : setCell m.Board y x (-1) = some b) :
    mineCount { m with Board := b } = mineCount m + 1 := by
  have hin : InBounds m x y := inBounds_of_getCell hwf.1 hv
  have hx : ((x.toNat : Nat) : Int) = x := Int.toNat_of_nonneg hin.1
  have hy : ((y.toNat : Nat) : Int) = y := Int.toNat_of_nonneg hin.2.2.1
  have hnot : (y.toNat, x.toNat) ∉ mineCells m := by
    unfold mineCells isMine
    rw [Finset.mem_filter]
    rintro ⟨_, h⟩
    simp only [hx, hy] at h
    rw [hv] at h
    exact hne (Option.some.inj h)
  have hset : mineCells { m with Board := b } = insert (y.toNat, x.toNat) (mineCells m) := by
    ext c
    unfold mineCells isMine
    rw [Finset.mem_insert, Finset.mem_filter, Finset.mem_filter]
    have hcells : cells { m with Board := b } = cells m := rfl
    rw [hcells]
    simp only [getCell_setCell hb]
    constructor
    · rintro ⟨hc, h⟩
      by_cases hcy : (c.1 : Int) = y ∧ (c.2 : Int) = x
      · left
        ext <;> simp only <;> omega
      · right
        rw [if_neg hcy] at h
        exact ⟨hc, h⟩
    · rintro (h | ⟨hc, h⟩)
      · subst h
        refine ⟨mem_cells_of_inBounds hin, ?_⟩
        simp [hx, hy]
      · refine ⟨hc, ?_⟩
        split
        · rfl
        · exact h
  unfold mineCount
  rw [hset, Finset.card_insert_of_not_mem hnot]

/-- The loop of `placeMines`, entered with `i` mines on the board, leaves exactly
`NumberOfMines` of them when it ends, and touches nothing but the board. -/
theorem placeMinesFrom_spec (draws : List (Nat × Nat)) :
    ∀ (i : Int) (m m' : MineSweeperModel), WF m → i ≤ m.NumberOfMines →
      (mineCount m : Int) = i → placeMinesFrom draws i m = some m' →
      WF m' ∧ (mineCount m' : Int) = m.NumberOfMines ∧ ∃ b, m' = { m with Board := b } := by
  induction draws with
  | nil =>
    intro i m m' hwf hle hcount h
    unfold placeMinesFrom at h
    split at h
    · cases h
    · cases h
      exact ⟨hwf, by omega, m.Board, rfl⟩
  | cons d rest ih =>
    intro i m m' hwf hle hcount h
    obtain ⟨rx, ry⟩ := d
    unfold placeMinesFrom at h
    split at h
    · rename_i hlt
      simp only [Option.bind_eq_bind, Option.bind_eq_some] at h
      obtain ⟨x, _, y, _, v, hv, h⟩ := h
      split at h
      · have hi : i - 1 + 1 = i := by ring
        rw [hi] at h
        exact ih i m m' hwf hle hcount h
      · rename_i hne
        simp only [Option.bind_eq_some] at h
        obtain ⟨b, hb, h⟩ := h
        have hwf' : WF { m with Board := b } := ⟨setCell_dims hb hwf.1, hwf.2.1, hwf.2.2⟩
        have hc' : (mineCount { m with Board := b } : Int) = i + 1 := by
          rw [mineCount_setCell_mine m hwf x y v b hv hne hb]
          push_cast
          omega
        obtain ⟨h1, h2, b', h3⟩ := ih (i + 1) _ m' hwf' (by simp only; omega) hc' h
        exact ⟨h1, h2, b', h3⟩
    · cases h
      exact ⟨hwf, by omega, m.Board, rfl⟩

theorem foldlM_three {σ α : Type} (f : σ → α → Option σ) (a b c : α) (s : σ) :
    [a, b, c].foldlM f s = (f s a).bind (fun s1 => (f s1 b).bind (fun s2 => f s2 c)) := by
  simp only [List.foldlM_cons, List.foldlM_nil, Option.bind_eq_bind]
  cases f s a with
  | none => rfl
  | some s1 =>
    simp only [Option.some_bind]
    cases f s1 b with
    | none => rfl
    | some s2 =>
      simp only [Option.some_bind]
      cases f s2 c <;> rfl

theorem countMines_cell (m : MineSweeperModel) (hwf : WF m) (i j c : Int)
    (hi : ¬ (i < 0 ∨ i ≥ m.Height)) :
    (if j < 0 ∨ j ≥ m.Width then some c
      else do
        let v ← getCell m.Board i j
        if v = -1 then some (c + 1) else some c) = some (c + mineAt m j i) := by
  unfold mineAt
  split
  · rename_i hj
    have : ¬ InBounds m j i := by unfold InBounds; omega
    simp [this]
  · rename_i hj
    have hb : InBounds m j i := by unfold InBounds; omega
    obtain ⟨v, hv⟩ := getCell_of_inBounds hwf.1 hb
    simp only [hv, Option.bind_eq_bind, Option.some_bind, isMine, hb, true_and,
      Option.some.injEq]
    by_cases h1 : v = -1
    · simp [h1]
    · simp [h1]

theorem countMines_row (m : MineSweeperModel) (hwf : WF m) (x i c : Int) :
    (if i < 0 ∨ i ≥ m.Height then some c
      else
        [x - 1, x, x + 1].foldlM (fun count j =>
          if j < 0 ∨ j ≥ m.Width then some count
          else do
            let v ← getCell m.Board i j
            if v = -1 then some (count + 1) else some count) c)
      = some (c + mineAt m (x - 1) i + mineAt m x i + mineAt m (x + 1) i) := by
  split
  · rename_i hi
    have h : ∀ j, mineAt m j i = 0 := by
      intro j
      unfold mineAt
      have : ¬ InBounds m j i := by unfold InBounds; omega
      simp [this]
    simp [h]
  · rename_i hi
    rw [foldlM_three]
    rw [countMines_cell m hwf i (x - 1) c hi, Option.some_bind,
      countMines_cell m hwf i x _ hi, Option.some_bind,
      countMines_cell m hwf i (x + 1) _ hi]

theorem countMines_eq_sum (m : MineSweeperModel) (hwf : WF m) (x y : Int) :
    countMines m x y = some
      (mineAt m (x - 1) (y - 1) + mineAt m x (y - 1) + mineAt m (x + 1) (y - 1) +
       mineAt m (x - 1) y + mineAt m x y + mineAt m (x + 1) y +
       mineAt m (x - 1) (y + 1) + mineAt m x (y + 1) + mineAt m (x + 1) (y + 1)) := by
  unfold countMines
  rw [foldlM_three]
  rw [countMines_row m hwf x (y - 1) 0, Option.some_bind,
    countMines_row m hwf x y, Option.some_bind,
    countMines_row m hwf x (y + 1)]
  congr 1
  ring

theorem adjacentMines_eq_sum (m : MineSweeperModel) (x y : Int) :
    (adjacentMines m x y : Int) =
      mineAt m (x - 1) (y - 1) + mineAt m x (y - 1) + mineAt m (x + 1) (y - 1) +
       mineAt m (x - 1) y + mineAt m (x + 1) y +
       mineAt m (x - 1) (y + 1) + mineAt m x (y + 1) + mineAt m (x + 1) (y + 1) := by
  unfold adjacentMines neighbours mineAt
  simp only [List.countP_cons, List.countP_nil, decide_eq_true_eq]
  push_cast
  ring

/-- On a cell that is not a mine, `countMines` returns the number of mines among
the in-bounds Moore neighbours. -/
theorem countMines_eq (m : MineSweeperModel) (hwf : WF m) (x y : Int)
    (hnm : ¬ isMine m x y) : countMines m x y = some (adjacentMines m x y : Int) := by
  rw [countMines_eq_sum m hwf, adjacentMines_eq_sum]
  have h0 : mineAt m x y = 0 := by
    unfold mineAt
    simp [hnm]
  rw [h0]
  congr 1
  ring

theorem adjacentMines_congr (m m' : MineSweeperModel) (hw : m'.Width = m.Width)
    (hh : m'.Height = m.Height) (hmine : ∀ x y, isMine m' x y ↔ isMine m x y) (x y : Int) :
    adjacentMines m' x y = adjacentMines m x y := by
  unfold adjacentMines
  congr 1
  funext c
  unfold InBounds
  simp only [hw, hh, hmine]

theorem CountsUpTo_mono (m1 : MineSweeperModel) (d d' : Int → Int → Prop) (s : MineSweeperModel)
    (h : ∀ x y, InBounds m1 x y → d' x y → d x y) (hs : CountsUpTo m1 d s) :
    CountsUpTo m1 d' s := by
  obtain ⟨b, h1, h2, h3, h4⟩ := hs
  exact ⟨b, h1, h2, h3, fun x y hb hd hm => h4 x y hb (h x y hb hd) hm⟩

theorem fillCounts_step (m1 : MineSweeperModel) (hwf : WF m1) (i j : Nat)
    (hi : (i : Int) < m1.Height) (hj : (j : Int) < m1.Width) (s : MineSweeperModel)
    (hs : CountsUpTo m1 (fun x y => y < (i : Int) ∨ (y = (i : Int) ∧ x < (j : Int))) s) :
    ∃ s', (do
        let v ← getCell s.Board (i : Int) (j : Int)
        if v = -1 then some s
        else do
          let c ← countMines s (j : Int) (i : Int)
          let b ← setCell s.Board (i : Int) (j : Int) c
          some { s with Board := b }) = some s' ∧
      CountsUpTo m1 (fun x y => y < (i : Int) ∨ (y = (i : Int) ∧ x < ((j + 1 : Nat) : Int))) s' := by
  obtain ⟨b, rfl, hd, hmine, hdone⟩ := hs
  have hb : InBounds m1 (j : Int) (i : Int) := by unfold InBounds; omega
  obtain ⟨v, hv⟩ := getCell_of_inBounds hd hb
  by_cases hv1 : v = -1
  · refine ⟨{ m1 with Board := b }, by simp [hv, hv1], b, rfl, hd, hmine, ?_⟩
    intro x y hxy hdn hnm
    have hcell : ¬ (y = (i : Int) ∧ x = (j : Int)) := by
      rintro ⟨rfl, rfl⟩
      apply hnm
      rw [← hmine, hv, hv1]
    exact hdone x y hxy (by push_cast at hdn; omega) hnm
  · have hwfs : WF { m1 with Board := b } := ⟨hd, hwf.2.1, hwf.2.2⟩
    have hmine' : ∀ x y, isMine { m1 with Board := b } x y ↔ isMine m1 x y := hmine
    have hnm : ¬ isMine { m1 with Board := b } (j : Int) (i : Int) := by
      unfold isMine
      simp only [hv, Option.some.injEq]
      exact hv1
    have hc := countMines_eq _ hwfs (j : Int) (i : Int) hnm
    rw [adjacentMines_congr m1 { m1 with Board := b } rfl rfl hmine'] at hc
    obtain ⟨b', hb'⟩ := setCell_of_getCell hv (adjacentMines m1 (j : Int) (i : Int) : Int)
    refine ⟨{ m1 with Board := b' }, by simp [hv, hv1, hc, hb'], b', rfl,
      setCell_dims hb' hd, ?_, ?_⟩
    · intro x y
      rw [getCell_setCell hb', ← hmine]
      split
      · rename_i hxy
        obtain ⟨rfl, rfl⟩ := hxy
        rw [hv]
        simp only [Option.some.injEq, hv1, iff_false]
        omega
      · rfl
    · intro x y hxy hdn hnm'
      rw [getCell_setCell hb']
      split
      · rename_i hxy'
        obtain ⟨rfl, rfl⟩ := hxy'
        rfl
      · rename_i hxy'
        exact hdone x y hxy (by push_cast at hdn; omega) hnm'

/-- The adjacency pass never fails on a well-formed state, keeps the mines where
they are and stores in every other cell the number of mines around it. -/
theorem fillCounts_spec (m1 : MineSweeperModel) (hwf : WF m1) :
    ∃ b, fillCounts m1.Width m1.Height m1 = some { m1 with Board := b } ∧
      GridDims b m1.Height m1.Width ∧
      (∀ x y, getCell b y x = some (-1) ↔ isMine m1 x y) ∧
      ∀ x y, InBounds m1 x y → ¬ isMine m1 x y →
        getCell b y x = some (adjacentMines m1 x y : Int) := by
  unfold fillCounts
  obtain ⟨s', h1, h2⟩ := foldlM_range
    (fun (m : MineSweeperModel) (i : Nat) =>
      (List.range m1.Width.toNat).foldlM (fun (m : MineSweeperModel) (j : Nat) => do
        let v ← getCell m.Board (i : Int) (j : Int)
        if v = -1 then some m
        else do
          let c ← countMines m (j : Int) (i : Int)
          let b ← setCell m.Board (i : Int) (j : Int) c
          some { m with Board := b }) m)
    (fun i s => CountsUpTo m1 (fun _ y => y < (i : Int)) s)
    m1.Height.toNat m1
    ⟨m1.Board, rfl, hwf.1, fun _ _ => Iff.rfl, fun x y hb hd => by
      exfalso
      have := hb.2.2.1
      simp only [Nat.cast_zero] at hd
      omega⟩
    (by
      intro i s hi hs
      obtain ⟨s', h1, h2⟩ := foldlM_range
        (fun (m : MineSweeperModel) (j : Nat) => do
          let v ← getCell m.Board (i : Int) (j : Int)
          if v = -1 then some m
          else do
            let c ← countMines m (j : Int) (i : Int)
            let b ← setCell m.Board (i : Int) (j : Int) c
            some { m with Board := b })
        (fun j s => CountsUpTo m1 (fun x y => y < (i : Int) ∨ (y = (i : Int) ∧ x < (j : Int))) s)
        m1.Width.toNat s
        (CountsUpTo_mono m1 _ _ s (fun x y hb hd => by
          have := hb.1
          simp only [Nat.cast_zero] at hd
          omega) hs)
        (fun j s hj hs => fillCounts_step m1 hwf i j (by omega) (by omega) s hs)
      refine ⟨s', h1, CountsUpTo_mono m1 _ _ s' (fun x y hb hd => ?_) h2⟩
      have := hb.2.1
      push_cast at hd
      omega)
  obtain ⟨b, rfl, hd, hmine, hdone⟩ := h2
  refine ⟨b, h1, hd, hmine, fun x y hb hnm => hdone x y hb ?_ hnm⟩
  have := hb.2.2.2
  omega

/-- What `InitModel` returns once `placeMines` has finished on valid parameters:
the state of `placeMines` with the board rewritten by the adjacency pass. -/
theorem InitModel_of_placeMines (draws : List (Nat × Nat)) (w h n : Int) (hw : 0 < w)
    (hh : 0 < h) (hn0 : 0 ≤ n) (m1 : MineSweeperModel)
    (hplace : placeMines draws (emptyModel w h n) = some m1) :
    ∃ b, InitModel draws w h n = some { emptyModel w h n with Board := b } ∧
      WF { emptyModel w h n with Board := b } ∧ WF m1 ∧
      (mineCount m1 : Int) = n ∧ m1.Width = w ∧ m1.Height = h ∧
      (∀ x y, getCell b y x = some (-1) ↔ isMine m1 x y) ∧
      ∀ x y, InBounds m1 x y → ¬ isMine m1 x y →
        getCell b y x = some (adjacentMines m1 x y : Int) := by
  have hwf0 : WF (emptyModel w h n) := emptyModel_WF w h n (by omega) (by omega)
  obtain ⟨hwf1, hc1, b1, hb1⟩ := placeMinesFrom_spec draws 0 (emptyModel w h n) m1 hwf0 hn0
    (by rw [mineCount_emptyModel]; rfl) hplace
  subst hb1
  obtain ⟨b, h1, h2, h3, h4⟩ := fillCounts_spec _ hwf1
  refine ⟨b, ?_, ⟨h2, hwf0.2.1, hwf0.2.2⟩, hwf1, hc1, rfl, rfl, h3, h4⟩
  unfold InitModel
  rw [if_neg (by omega), if_neg (by omega)]
  simp only [hplace, Option.bind_eq_bind, Option.some_bind]
  exact h1

/-- C1: for valid `width`, `height`, `mineCount` and every sequence of draws on
which `placeMines` finishes, `InitModel` returns a board with exactly `mineCount`
cells holding the mine value `-1`. -/
theorem InitModel_mineCount (draws : List (Nat × Nat)) (w h n : Int) (hw : 0 < w) (hh : 0 < h)
    (hn0 : 0 ≤ n) (_hn : n ≤ w * h) (m1 : MineSweeperModel)
    (hplace : placeMines draws (emptyModel w h n) = some m1) :
    ∃ m, InitModel draws w h n = some m ∧ (mineCount m : Int) = n := by
  obtain ⟨b, hinit, _, _, hc1, hw1, hh1, hmine, _⟩ :=
    InitModel_of_placeMines draws w h n hw hh hn0 m1 hplace
  refine ⟨_, hinit, ?_⟩
  have hcells : cells { emptyModel w h n with Board := b } = cells m1 := by
    unfold cells
    rw [hw1, hh1]
    rfl
  have hsame : mineCount { emptyModel w h n with Board := b } = mineCount m1 := by
    unfold mineCount mineCells
    rw [hcells]
    exact congrArg Finset.card (Finset.filter_congr (fun c _ => hmine _ _))
  rw [hsame]
  exact hc1

theorem InitModel_mineCount_witness :
    (0 : Int) < 3 ∧ (0 : Int) ≤ 2 ∧ (2 : Int) ≤ 3 * 3 ∧
    placeMines [(5, 5), (2, 2), (0, 0)] (emptyModel 3 3 2) = some placed33 ∧
    ∃ m, InitModel [(5, 5), (2, 2), (0, 0)] 3 3 2 = some m ∧ (mineCount m : Int) = 2 :=
  ⟨by decide, by decide, by decide, by decide,
    InitModel_mineCount [(5, 5), (2, 2), (0, 0)] 3 3 2 (by decide) (by decide) (by decide)
      (by decide) placed33 (by decide)⟩

/-- C2: after the adjacency pass of `InitModel` on a board filled by `placeMines`,
the mine cells are those `placeMines` chose, and every other cell of the grid
stores the number of mines among its in-bounds Moore neighbours. -/
theorem InitModel_counts (draws : List (Nat × Nat)) (w h n : Int) (hw : 0 < w) (hh : 0 < h)
    (hn0 : 0 ≤ n) (m1 : MineSweeperModel)
    (hplace : placeMines draws (emptyModel w h n) = some m1) :
    ∃ m, InitModel draws w h n = some m ∧
      (∀ x y, isMine m x y ↔ isMine m1 x y) ∧
      ∀ x y, InBounds m x y → ¬ isMine m x y →
        getCell m.Board y x = some (adjacentMines m x y : Int) := by
  obtain ⟨b, hinit, _, _, _, hw1, hh1, hmine, hcnt⟩ :=
    InitModel_of_placeMines draws w h n hw hh hn0 m1 hplace
  have hmine' : ∀ x y, isMine { emptyModel w h n with Board := b } x y ↔ isMine m1 x y := hmine
  refine ⟨_, hinit, hmine', ?_⟩
  intro x y hb hnm
  have hb1 : InBounds m1 x y := by
    unfold InBounds at hb ⊢
    rw [hw1, hh1]
    exact hb
  rw [adjacentMines_congr m1 { emptyModel w h n with Board := b } hw1.symm hh1.symm hmine']
  exact hcnt x y hb1 (fun hm => hnm ((hmine' x y).mpr hm))

theorem InitModel_counts_witness :
    (0 : Int) < 3 ∧ (0 : Int) ≤ 2 ∧
    placeMines [(5, 5), (2, 2), (0, 0)] (emptyModel 3 3 2) = some placed33 ∧
    ∃ m, InitModel [(5, 5), (2, 2), (0, 0)] 3 3 2 = some m ∧
      (∀ x y, isMine m x y ↔ isMine placed33 x y) ∧
      ∀ x y, InBounds m x y → ¬ isMine m x y →
        getCell m.Board y x = some (adjacentMines m x y : Int) :=
  ⟨by decide, by decide, by decide,
    InitModel_counts [(5, 5), (2, 2), (0, 0)] 3 3 2 (by decide) (by decide) (by decide)
      placed33 (by decide)⟩

/-! ## The flood fill -/

theorem openCell_zero (m : MineSweeperModel) (x y : Int) : openCell 0 m x y = none := rfl

theorem openCell_succ (fuel : Nat) (m : MineSweeperModel) (x y : Int) :
    openCell (fuel + 1) m x y =
      (getCell m.Board y x).bind (fun v =>
        (setCell m.Opened y x true).bind (fun o =>
          if v ≠ 0 then some { m with Opened := o }
          else [y - 1, y, y + 1].foldlM (openRow (openCell fuel) x) { m with Opened := o })) := by
  rw [openCell]
  cases getCell m.Board y x with
  | none => rfl
  | some v =>
    simp only [Option.bind_eq_bind, Option.some_bind]
    by_cases hv : v = 0
    · simp only [hv, ne_eq, not_true_eq_false, if_false]
      rfl
    · simp only [ne_eq, hv, not_false_eq_true, if_true]

theorem Reach_inBounds {m : MineSweeperModel} {x y x' y' : Int} (h : Reach m x y x' y') :
    InBounds m x y ∧ InBounds m x' y' := by
  induction h with
  | here x y hb => exact ⟨hb, hb⟩
  | step x y x1 y1 x2 y2 hb _ _ _ ih => exact ⟨hb, ih.2⟩

theorem Reach_congr {m m' : MineSweeperModel} (hw : m'.Width = m.Width)
    (hh : m'.Height = m.Height) (hb : m'.Board = m.Board) {x y x' y' : Int}
    (h : Reach m x y x' y') : Reach m' x y x' y' := by
  have hin : ∀ a b, InBounds m a b → InBounds m' a b := by
    intro a b hab
    unfold InBounds at hab ⊢
    rw [hw, hh]
    exact hab
  induction h with
  | here x y hxy => exact Reach.here x y (hin x y hxy)
  | step x y x1 y1 x2 y2 hxy h0 hadj _ ih =>
    exact Reach.step x y x1 y1 x2 y2 (hin x y hxy) (by rw [hb]; exact h0) hadj ih

theorem Grows_refl {m : MineSweeperModel} (hwf : WF m) : Grows m m :=
  ⟨⟨m.Opened, rfl, hwf.2.2⟩, fun _ _ h => h⟩

theorem Grows_trans {m m1 m2 : MineSweeperModel} (h1 : Grows m m1) (h2 : Grows m1 m2) :
    Grows m m2 := by
  obtain ⟨⟨o1, rfl, hd1⟩, hm1⟩ := h1
  obtain ⟨⟨o2, rfl, hd2⟩, hm2⟩ := h2
  exact ⟨⟨o2, rfl, hd2⟩, fun x y h => hm2 x y (hm1 x y h)⟩

theorem Grows_WF {m m' : MineSweeperModel} (hwf : WF m) (h : Grows m m') : WF m' := by
  obtain ⟨⟨o, rfl, hd⟩, _⟩ := h
  exact ⟨hwf.1, hwf.2.1, hd⟩

theorem unopenedCells_subset {m m' : MineSweeperModel} (hwf : WF m) (h : Grows m m') :
    unopenedCells m' ⊆ unopenedCells m := by
  obtain ⟨⟨o, rfl, hd⟩, hmono⟩ := h
  intro c hc
  unfold unopenedCells at hc ⊢
  rw [Finset.mem_filter] at hc ⊢
  have hcm : c ∈ cells m := hc.1
  refine ⟨hcm, ?_⟩
  obtain ⟨v, hv⟩ := getCell_of_inBounds hwf.2.2 (inBounds_of_mem_cells hcm)
  cases v with
  | false => exact hv
  | true =>
    have := hmono _ _ hv
    unfold isOpen at this
    rw [hc.2] at this
    cases this

theorem unopened_card_le {m m' : MineSweeperModel} (hwf : WF m) (h : Grows m m') :
    (unopenedCells m').card ≤ (unopenedCells m).card :=
  Finset.card_le_card (unopenedCells_subset hwf h)

theorem unopened_card_lt {m m' : MineSweeperModel} (hwf : WF m) (h : Grows m m') (x y : Int)
    (hb : InBounds m x y) (hno : ¬ isOpen m x y) (ho : isOpen m' x y) :
    (unopenedCells m').card < (unopenedCells m).card := by
  apply Finset.card_lt_card
  rw [Finset.ssubset_iff_of_subset (unopenedCells_subset hwf h)]
  have hx : ((x.toNat : Nat) : Int) = x := Int.toNat_of_nonneg hb.1
  have hy : ((y.toNat : Nat) : Int) = y := Int.toNat_of_nonneg hb.2.2.1
  refine ⟨(y.toNat, x.toNat), ?_, ?_⟩
  · unfold unopenedCells
    rw [Finset.mem_filter]
    refine ⟨mem_cells_of_inBounds hb, ?_⟩
    simp only [hx, hy]
    exact getCell_false_of_not_open hwf hb hno
  · unfold unopenedCells
    rw [Finset.mem_filter]
    rintro ⟨_, hc⟩
    simp only [hx, hy] at hc
    unfold isOpen at ho
    rw [hc] at ho
    cases ho

theorem unopened_pos {m : MineSweeperModel} (hwf : WF m) (x y : Int) (hb : InBounds m x y)
    (hno : ¬ isOpen m x y) : 0 < (unopenedCells m).card := by
  have hx : ((x.toNat : Nat) : Int) = x := Int.toNat_of_nonneg hb.1
  have hy : ((y.toNat : Nat) : Int) = y := Int.toNat_of_nonneg hb.2.2.1
  apply Finset.card_pos.mpr
  refine ⟨(y.toNat, x.toNat), ?_⟩
  unfold unopenedCells
  rw [Finset.mem_filter]
  refine ⟨mem_cells_of_inBounds hb, ?_⟩
  simp only [hx, hy]
  exact getCell_false_of_not_open hwf hb hno

/-- Marking one cell opened: the new state grows the old one, and its opened cells
are the old ones and the marked cell. -/
theorem setOpened_spec {m : MineSweeperModel} (hwf : WF m) {x y : Int} (hb : InBounds m x y) :
    ∃ o, setCell m.Opened y x true = some o ∧ Grows m { m with Opened := o } ∧
      (∀ x' y', isOpen { m with Opened := o } x' y' ↔ ((y' = y ∧ x' = x) ∨ isOpen m x' y')) ∧
      (isOpen m x y → o = m.Opened) := by
  obtain ⟨v, hv⟩ := getCell_of_inBounds hwf.2.2 hb
  obtain ⟨o, ho⟩ := setCell_of_getCell hv true
  have hiff : ∀ x' y', isOpen { m with Opened := o } x' y' ↔
      ((y' = y ∧ x' = x) ∨ isOpen m x' y') := by
    intro x' y'
    unfold isOpen
    simp only [getCell_setCell ho]
    by_cases hc : y' = y ∧ x' = x
    · simp [hc]
    · simp [hc]
  refine ⟨o, ho, ⟨⟨o, rfl, setCell_dims ho hwf.2.2⟩, fun x' y' h => (hiff x' y').mpr (Or.inr h)⟩,
    hiff, ?_⟩
  intro hop
  have := setCell_same hop
  rw [ho] at this
  exact Option.some.inj this

theorem FillInv_mono {m : MineSweeperModel} {x y : Int} {m1 : MineSweeperModel}
    {done done' : Int → Int → Prop} {s : MineSweeperModel}
    (h : ∀ x' y', InBounds m x' y' → done' x' y' → done x' y')
    (hs : FillInv m x y m1 done s) : FillInv m x y m1 done' s :=
  ⟨hs.1, hs.2.1, hs.2.2.1, fun x' y' hb hd => hs.2.2.2 x' y' hb (h x' y' hb hd)⟩

theorem openNeighbour_step (fuel : Nat)
    (IH : ∀ m x y, WF m → InBounds m x y →
      (unopenedCells m).card + (if isOpen m x y then 1 else 0) ≤ fuel →
      ∃ m', openCell fuel m x y = some m' ∧ OpenPost m x y m')
    (m : MineSweeperModel) (hwf : WF m) (x y : Int) (hb : InBounds m x y)
    (h0 : getCell m.Board y x = some 0) (m1 : MineSweeperModel) (hg1 : Grows m m1)
    (hopen1 : isOpen m1 x y) (hcard : (unopenedCells m1).card ≤ fuel)
    (i j : Int) (hi : ¬ (i < 0 ∨ i ≥ m.Height)) (hiy : y - 1 ≤ i ∧ i ≤ y + 1)
    (hjx : x - 1 ≤ j ∧ j ≤ x + 1) (done : Int → Int → Prop) (s : MineSweeperModel)
    (hs : FillInv m x y m1 done s) :
    ∃ s', openNeighbour (openCell fuel) i s j = some s' ∧
      FillInv m x y m1 (fun x' y' => done x' y' ∨ (y' = i ∧ x' = j)) s' := by
  obtain ⟨hgs, hsound, hclosed, hdone⟩ := hs
  have hwf1 : WF m1 := Grows_WF hwf hg1
  have hcard_s : (unopenedCells s).card ≤ fuel := le_trans (unopened_card_le hwf1 hgs) hcard
  have hopen_s : isOpen s x y := hgs.2 x y hopen1
  have hgms : Grows m s := Grows_trans hg1 hgs
  have hwfs : WF s := Grows_WF hwf hgms
  obtain ⟨⟨o, hso, hd⟩, -⟩ := hgms
  have hW : s.Width = m.Width := by rw [hso]
  have hH : s.Height = m.Height := by rw [hso]
  have hB : s.Board = m.Board := by rw [hso]
  unfold openNeighbour
  rw [hW]
  by_cases hj : j < 0 ∨ j ≥ m.Width
  · rw [if_pos hj]
    refine ⟨s, rfl, hgs, hsound, hclosed, ?_⟩
    rintro x' y' hb' (hd' | ⟨rfl, rfl⟩)
    · exact hdone x' y' hb' hd'
    · exfalso
      unfold InBounds at hb'
      omega
  · rw [if_neg hj]
    have hbji : InBounds m j i := by unfold InBounds; omega
    have hbji_s : InBounds s j i := by
      unfold InBounds
      rw [hW, hH]
      exact hbji
    obtain ⟨b, hbv⟩ := getCell_of_inBounds hwfs.2.2 hbji_s
    cases b with
    | true =>
      refine ⟨s, by simp [hbv], hgs, hsound, hclosed, ?_⟩
      rintro x' y' hb' (hd' | ⟨rfl, rfl⟩)
      · exact hdone x' y' hb' hd'
      · exact hbv
    | false =>
      have hno : ¬ isOpen s j i := by
        unfold isOpen
        rw [hbv]
        simp
      obtain ⟨s', hs', hg', ho', hsound', hclosed'⟩ := IH s j i hwfs hbji_s (by
        rw [if_neg hno]
        exact hcard_s)
      refine ⟨s', by simp [hbv, hs'], Grows_trans hgs hg', ?_, ?_, ?_⟩
      · intro x' y' hos' hnm
        by_cases hos : isOpen s x' y'
        · exact hsound x' y' hos hnm
        · have hr : Reach m j i x' y' :=
            Reach_congr hW.symm hH.symm hB.symm (hsound' x' y' hos' hos)
          refine Reach.step x y j i x' y' hb h0 ⟨?_, hjx.1, hjx.2, hiy.1, hiy.2⟩ hr
          intro heq
          simp only [Prod.mk.injEq] at heq
          obtain ⟨rfl, rfl⟩ := heq
          exact hno hopen_s
      · intro x' y' hb' hn1 hos' hz x2 y2 hb2 hadj
        by_cases hos : isOpen s x' y'
        · exact hg'.2 _ _ (hclosed x' y' hb' hn1 hos hz x2 y2 hb2 hadj)
        · have hbs' : InBounds s x' y' := by
            unfold InBounds
            rw [hW, hH]
            exact hb'
          have hb2s : InBounds s x2 y2 := by
            unfold InBounds
            rw [hW, hH]
            exact hb2
          exact hclosed' x' y' hbs' (Or.inr hos) hos' (by rw [hB]; exact hz) x2 y2 hb2s hadj
      · rintro x' y' hb' (hd' | ⟨rfl, rfl⟩)
        · exact hg'.2 _ _ (hdone x' y' hb' hd')
        · exact ho'

theorem openRow_step (fuel : Nat)
    (IH : ∀ m x y, WF m → InBounds m x y →
      (unopenedCells m).card + (if isOpen m x y then 1 else 0) ≤ fuel →
      ∃ m', openCell fuel m x y = some m' ∧ OpenPost m x y m')
    (m : MineSweeperModel) (hwf : WF m) (x y : Int) (hb : InBounds m x y)
    (h0 : getCell m.Board y x = some 0) (m1 : MineSweeperModel) (hg1 : Grows m m1)
    (hopen1 : isOpen m1 x y) (hcard : (unopenedCells m1).card ≤ fuel)
    (i : Int) (hiy : y - 1 ≤ i ∧ i ≤ y + 1) (done : Int → Int → Prop) (s : MineSweeperModel)
    (hs : FillInv m x y m1 done s) :
    ∃ s', openRow (openCell fuel) x s i = some s' ∧
      FillInv m x y m1 (fun x' y' => done x' y' ∨ (y' = i ∧ x - 1 ≤ x' ∧ x' ≤ x + 1)) s' := by
  have hH : s.Height = m.Height := by
    obtain ⟨⟨o, hso, -⟩, -⟩ := Grows_trans hg1 hs.1
    rw [hso]
  unfold openRow
  rw [hH]
  by_cases hi : i < 0 ∨ i ≥ m.Height
  · rw [if_pos hi]
    refine ⟨s, rfl, FillInv_mono ?_ hs⟩
    rintro x' y' hb' (hd' | ⟨rfl, -⟩)
    · exact hd'
    · exfalso
      unfold InBounds at hb'
      omega
  · rw [if_neg hi]
    obtain ⟨s', h1, h2⟩ := foldlM_visited (openNeighbour (openCell fuel) i)
      (fun pre s => FillInv m x y m1 (fun x' y' => done x' y' ∨ (y' = i ∧ x' ∈ pre)) s)
      [x - 1, x, x + 1] s
      (FillInv_mono (by
        rintro x' y' - (hd' | ⟨-, hmem⟩)
        · exact hd'
        · cases hmem) hs)
      (by
        intro pre a post s hl hs
        have ha : a ∈ [x - 1, x, x + 1] := by
          rw [hl]
          simp
        have hax : x - 1 ≤ a ∧ a ≤ x + 1 := by
          simp only [List.mem_cons, List.mem_singleton, List.not_mem_nil, or_false] at ha
          omega
        obtain ⟨s', hs1, hs2⟩ := openNeighbour_step fuel IH m hwf x y hb h0 m1 hg1 hopen1 hcard
          i a hi hiy hax _ s hs
        refine ⟨s', hs1, FillInv_mono ?_ hs2⟩
        rintro x' y' - (hd' | ⟨rfl, hmem⟩)
        · exact Or.inl (Or.inl hd')
        · rw [List.mem_append, List.mem_singleton] at hmem
          rcases hmem with hmem | rfl
          · exact Or.inl (Or.inr ⟨rfl, hmem⟩)
          · exact Or.inr ⟨rfl, rfl⟩)
    refine ⟨s', h1, FillInv_mono ?_ h2⟩
    rintro x' y' - (hd' | ⟨rfl, hx1, hx2⟩)
    · exact Or.inl hd'
    · refine Or.inr ⟨rfl, ?_⟩
      simp only [List.mem_cons, List.mem_singleton, List.not_mem_nil, or_false]
      omega

/-- The flood fill `open(x, y)` returns on every in-bounds cell of a well-formed
state as soon as the fuel exceeds the number of unopened cells, and its result
satisfies `OpenPost`. -/
theorem openCell_spec : ∀ (fuel : Nat) (m : MineSweeperModel) (x y : Int), WF m →
    InBounds m x y → (unopenedCells m).card + (if isOpen m x y then 1 else 0) ≤ fuel →
    ∃ m', openCell fuel m x y = some m' ∧ OpenPost m x y m' := by
  intro fuel
  induction fuel with
  | zero =>
    intro m x y hwf hb hc
    exfalso
    by_cases ho : isOpen m x y
    · rw [if_pos ho] at hc
      omega
    · have := unopened_pos hwf x y hb ho
      omega
  | succ fuel IH =>
    intro m x y hwf hb hc
    obtain ⟨v, hv⟩ := getCell_of_inBounds hwf.1 hb
    obtain ⟨o, ho, hg1, hiff, hsame⟩ := setOpened_spec hwf hb
    have hopen1 : isOpen { m with Opened := o } x y := (hiff x y).mpr (Or.inl ⟨rfl, rfl⟩)
    rw [openCell_succ, hv, Option.some_bind, ho, Option.some_bind]
    by_cases hv0 : v = 0
    · subst hv0
      rw [if_neg (by simp)]
      have hcard : (unopenedCells { m with Opened := o }).card ≤ fuel := by
        by_cases hop : isOpen m x y
        · rw [if_pos hop] at hc
          rw [hsame hop]
          have : ({ m with Opened := m.Opened } : MineSweeperModel) = m := rfl
          rw [this]
          omega
        · rw [if_neg hop] at hc
          have := unopened_card_lt hwf hg1 x y hb hop hopen1
          omega
      obtain ⟨s', h1, hfin⟩ := foldlM_visited (openRow (openCell fuel) x)
        (fun pre s => FillInv m x y { m with Opened := o }
          (fun x' y' => y' ∈ pre ∧ x - 1 ≤ x' ∧ x' ≤ x + 1) s)
        [y - 1, y, y + 1] { m with Opened := o }
        ⟨Grows_refl (Grows_WF hwf hg1),
          fun x' y' hos hnm => by
            rcases (hiff x' y').mp hos with ⟨rfl, rfl⟩ | h
            · exact Reach.here _ _ hb
            · exact absurd h hnm,
          fun x' y' _ hn1 hos => absurd hos hn1,
          fun x' y' _ hd => by cases hd.1⟩
        (by
          intro pre i post s hl hs
          have hi : i ∈ [y - 1, y, y + 1] := by
            rw [hl]
            simp
          have hiy : y - 1 ≤ i ∧ i ≤ y + 1 := by
            simp only [List.mem_cons, List.mem_singleton, List.not_mem_nil, or_false] at hi
            omega
          obtain ⟨s', hs1, hs2⟩ := openRow_step fuel IH m hwf x y hb hv
            { m with Opened := o } hg1 hopen1 hcard i hiy _ s hs
          refine ⟨s', hs1, FillInv_mono ?_ hs2⟩
          rintro x' y' - ⟨hmem, hx1, hx2⟩
          rw [List.mem_append, List.mem_singleton] at hmem
          rcases hmem with hmem | rfl
          · exact Or.inl ⟨hmem, hx1, hx2⟩
          · exact Or.inr ⟨rfl, hx1, hx2⟩)
      refine ⟨s', h1, Grows_trans hg1 hfin.1, hfin.1.2 _ _ hopen1, hfin.2.1, ?_⟩
      intro x' y' hb' hcase hos' hz x2 y2 hb2 hadj
      by_cases hxy : y' = y ∧ x' = x
      · obtain ⟨rfl, rfl⟩ := hxy
        obtain ⟨-, ha1, ha2, ha3, ha4⟩ := hadj
        refine hfin.2.2.2 x2 y2 hb2 ⟨?_, ha1, ha2⟩
        simp only [List.mem_cons, List.mem_singleton, List.not_mem_nil, or_false]
        omega
      · have hnm : ¬ isOpen m x' y' := by
          rcases hcase with h | h
          · exact absurd h hxy
          · exact h
        have hn1 : ¬ isOpen { m with Opened := o } x' y' := by
          intro h
          rcases (hiff x' y').mp h with h | h
          · exact hxy h
          · exact hnm h
        exact hfin.2.2.1 x' y' hb' hn1 hos' hz x2 y2 hb2 hadj
    · rw [if_pos hv0]
      refine ⟨_, rfl, hg1, hopen1, ?_, ?_⟩
      · intro x' y' hos hnm
        rcases (hiff x' y').mp hos with ⟨rfl, rfl⟩ | h
        · exact Reach.here _ _ hb
        · exact absurd h hnm
      · intro x' y' hb' hcase hos' hz
        exfalso
        have hat : y' = y ∧ x' = x := by
          rcases (hiff x' y').mp hos' with h | h
          · exact h
          · rcases hcase with h' | h'
            · exact h'
            · exact absurd h h'
        obtain ⟨rfl, rfl⟩ := hat
        rw [hv] at hz
        exact hv0 (Option.some.inj hz)

theorem unopened_card_le_area (m : MineSweeperModel) :
    (unopenedCells m).card ≤ (m.Height * m.Width).toNat := by
  unfold unopenedCells
  refine le_trans (Finset.card_filter_le _ _) ?_
  unfold cells
  rw [Finset.card_product, Finset.card_range, Finset.card_range]
  by_cases hh : 0 ≤ m.Height
  · by_cases hw : 0 ≤ m.Width
    · have : (m.Height * m.Width).toNat = m.Height.toNat * m.Width.toNat := by
        have h1 := Int.toNat_of_nonneg hh
        have h2 := Int.toNat_of_nonneg hw
        have h3 : m.Height * m.Width = ((m.Height.toNat * m.Width.toNat : Nat) : Int) := by
          push_cast
          rw [h1, h2]
        rw [h3, Int.toNat_natCast]
      omega
    · have : m.Width.toNat = 0 := by omega
      rw [this]
      simp
  · have : m.Height.toNat = 0 := by omega
    rw [this]
    simp

/-- On a non-mine in-bounds cell of a well-formed state `Open` returns, and its
result satisfies `OpenPost`. -/
theorem Open_spec (m : MineSweeperModel) (x y : Int) (hwf : WF m) (hb : InBounds m x y)
    (hnm : ¬ isMine m x y) : ∃ m', Open m x y = some m' ∧ OpenPost m x y m' := by
  obtain ⟨v, hv⟩ := getCell_of_inBounds hwf.1 hb
  have hv1 : v ≠ -1 := by
    intro h
    apply hnm
    unfold isMine
    rw [hv, h]
  unfold Open
  simp only [hv, Option.bind_eq_bind, Option.some_bind, if_neg hv1]
  apply openCell_spec _ m x y hwf hb
  unfold openFuel
  have := unopened_card_le_area m
  split <;> omega

theorem mem_neighbours_of_adjacent {x y x1 y1 : Int} (h : MooreAdjacent x y x1 y1) :
    (x1, y1) ∈ neighbours x y := by
  obtain ⟨hne, h1, h2, h3, h4⟩ := h
  have hx : x1 = x - 1 ∨ x1 = x ∨ x1 = x + 1 := by omega
  have hy : y1 = y - 1 ∨ y1 = y ∨ y1 = y + 1 := by omega
  unfold neighbours
  rcases hx with rfl | rfl | rfl <;> rcases hy with rfl | rfl | rfl <;> simp at hne ⊢

theorem adjacentMines_zero {m : MineSweeperModel} {x y : Int} (h : adjacentMines m x y = 0)
    {x1 y1 : Int} (hadj : MooreAdjacent x y x1 y1) (hb : InBounds m x1 y1) :
    ¬ isMine m x1 y1 := by
  unfold adjacentMines at h
  rw [List.countP_eq_zero] at h
  have := h (x1, y1) (mem_neighbours_of_adjacent hadj)
  simp only [decide_eq_true_eq, not_and] at this
  exact this hb

/-- On a board with correct counts a chain that starts on a non-mine cell never
arrives at a mine. -/
theorem Reach_not_mine {m : MineSweeperModel} (hc : CountsCorrect m) {x y x' y' : Int}
    (h : Reach m x y x' y') (hnm : ¬ isMine m x y) : ¬ isMine m x' y' := by
  induction h with
  | here x y _ => exact hnm
  | step x y x1 y1 x2 y2 hb h0 hadj hr ih =>
    apply ih
    have hcnt := hc x y hb hnm
    rw [h0] at hcnt
    have hz : adjacentMines m x y = 0 := by
      have := Option.some.inj hcnt
      exact_mod_cast this.symm
    exact adjacentMines_zero hz hadj (Reach_inBounds hr).1

/-- C4: on a board whose non-mine cells store their true counts, `Open(x, y)` on an
in-bounds non-mine cell returns and leaves the opened status of every mine cell as
it was. -/
theorem Open_never_opens_mine (m : MineSweeperModel) (x y : Int) (hwf : WF m)
    (hc : CountsCorrect m) (hb : InBounds m x y) (hnm : ¬ isMine m x y) :
    ∃ m', Open m x y = some m' ∧
      ∀ x' y', isMine m x' y' → getCell m'.Opened y' x' = getCell m.Opened y' x' := by
  obtain ⟨m', hopen, hg, -, hsound, -⟩ := Open_spec m x y hwf hb hnm
  refine ⟨m', hopen, ?_⟩
  intro x' y' hmine
  have hwf' : WF m' := Grows_WF hwf hg
  have hb' : InBounds m x' y' := inBounds_of_getCell hwf.1 hmine
  have hb'' : InBounds m' x' y' := by
    obtain ⟨⟨o, rfl, -⟩, -⟩ := hg
    exact hb'
  by_cases ho : isOpen m x' y'
  · have := hg.2 x' y' ho
    unfold isOpen at ho this
    rw [ho, this]
  · have ho' : ¬ isOpen m' x' y' := fun h => Reach_not_mine hc (hsound x' y' h ho) hnm hmine
    rw [getCell_false_of_not_open hwf hb' ho, getCell_false_of_not_open hwf' hb'' ho']

theorem Open_never_opens_mine_witness :
    WF board33 ∧ InBounds board33 0 0 ∧ ¬ isMine board33 0 0 ∧
    ∃ m', Open board33 0 0 = some m' ∧
      ∀ x' y', isMine board33 x' y' →
        getCell m'.Opened y' x' = getCell board33.Opened y' x' :=
  ⟨by decide, by decide, by decide,
    Open_never_opens_mine board33 0 0 (by decide)
      (by
        intro x y hb hnm
        have hx : x = 0 ∨ x = 1 ∨ x = 2 := by
          have h1 : 0 ≤ x := hb.1
          have h2 : x < 3 := hb.2.1
          omega
        have hy : y = 0 ∨ y = 1 ∨ y = 2 := by
          have h1 : 0 ≤ y := hb.2.2.1
          have h2 : y < 3 := hb.2.2.2
          omega
        rcases hx with rfl | rfl | rfl <;> rcases hy with rfl | rfl | rfl <;>
          first
            | decide
            | exact absurd (by decide) hnm)
      (by decide) (by decide)⟩

/-- With the closure property of the opened set, a chain that starts on an opened
cell stays among opened cells. -/
theorem Reach_closed {m m' : MineSweeperModel}
    (hcl : ∀ x' y', InBounds m x' y' → isOpen m' x' y' → getCell m.Board y' x' = some 0 →
      ∀ x2 y2, InBounds m x2 y2 → MooreAdjacent x' y' x2 y2 → isOpen m' x2 y2)
    {x y x' y' : Int} (h : Reach m x y x' y') (ho : isOpen m' x y) : isOpen m' x' y' := by
  induction h with
  | here x y _ => exact ho
  | step x y x1 y1 x2 y2 hb h0 hadj hr ih =>
    exact ih (hcl x y hb ho h0 x1 y1 (Reach_inBounds hr).1 hadj)

/-- C5: from a state with no opened cell, `Open(x, y)` on an in-bounds non-mine cell
opens exactly the cells reachable from `(x, y)` by a chain of Moore-adjacent
in-bounds cells whose cells before the last store zero; that is `(x, y)` alone when
the count of `(x, y)` is not zero. -/
theorem Open_opens_reachable (m : MineSweeperModel) (x y : Int) (hwf : WF m)
    (hb : InBounds m x y) (hnm : ¬ isMine m x y) (hclosed : ∀ x' y', ¬ isOpen m x' y') :
    ∃ m', Open m x y = some m' ∧
      (∀ x' y', isOpen m' x' y' ↔ Reach m x y x' y') ∧
      (getCell m.Board y x ≠ some 0 → ∀ x' y', isOpen m' x' y' ↔ (x' = x ∧ y' = y)) := by
  obtain ⟨m', hopen, hg, ho, hsound, hcl⟩ := Open_spec m x y hwf hb hnm
  have hiff : ∀ x' y', isOpen m' x' y' ↔ Reach m x y x' y' := by
    intro x' y'
    constructor
    · intro h
      exact hsound x' y' h (hclosed x' y')
    · intro h
      exact Reach_closed (fun a b hab hoab hz => hcl a b hab (Or.inr (hclosed a b)) hoab hz) h ho
  refine ⟨m', hopen, hiff, ?_⟩
  intro hnz x' y'
  rw [hiff]
  constructor
  · intro h
    cases h with
    | here _ _ _ => exact ⟨rfl, rfl⟩
    | step _ _ x1 y1 _ _ _ h0 _ _ => exact absurd h0 hnz
  · rintro ⟨rfl, rfl⟩
    exact Reach.here _ _ hb

theorem Open_opens_reachable_witness :
    WF board33 ∧ InBounds board33 0 0 ∧ ¬ isMine board33 0 0 ∧
    (∀ x' y', ¬ isOpen board33 x' y') ∧
    Open board33 0 0 = some { board33 with
      Opened := [[true, true, true], [true, true, true], [true, true, false]] } ∧
    ∃ m', Open board33 0 0 = some m' ∧
      (∀ x' y', isOpen m' x' y' ↔ Reach board33 0 0 x' y') ∧
      (getCell board33.Board 0 0 ≠ some 0 → ∀ x' y', isOpen m' x' y' ↔ (x' = 0 ∧ y' = 0)) :=
  ⟨by decide, by decide, by decide,
    (fun x' y' h => by
      have := getCell_replicate 3 3 false true y' x' h
      cases this),
    by decide,
    Open_opens_reachable board33 0 0 (by decide) (by decide) (by decide)
      (fun x' y' h => by
        have := getCell_replicate 3 3 false true y' x' h
        cases this)⟩

/-! ## Opening an opened cell; the states of a game -/

theorem grid_ext {α : Type} {g g' : List (List α)} {h w : Int} (hd : GridDims g h w)
    (hd' : GridDims g' h w) (heq : ∀ y x, getCell g y x = getCell g' y x) : g = g' := by
  obtain ⟨hl, hrow⟩ := hd
  obtain ⟨hl', hrow'⟩ := hd'
  apply List.ext_getElem (by omega)
  intro n h1 h2
  have hr1 := hrow (g[n]) (List.getElem_mem h1)
  have hr2 := hrow' (g'[n]) (List.getElem_mem h2)
  apply List.ext_getElem (by omega)
  intro k hk1 hk2
  have hcell := heq (n : Int) (k : Int)
  unfold getCell at hcell
  have hneg : ¬ ((n : Int) < 0 ∨ (k : Int) < 0) := by omega
  simp only [hneg, if_false, Int.toNat_natCast, List.getElem?_eq_getElem h1,
    List.getElem?_eq_getElem h2, List.getElem?_eq_getElem hk1,
    List.getElem?_eq_getElem hk2, Option.some.injEq] at hcell
  exact hcell

/-- Two well-formed states that differ at most in the Opened grid and have the
same opened cells are equal. -/
theorem eq_of_same_opened {m m' : MineSweeperModel} (hwf : WF m) (hg : Grows m m')
    (h : ∀ x y, isOpen m' x y → isOpen m x y) : m' = m := by
  obtain ⟨⟨o, rfl, hd⟩, hmono⟩ := hg
  have : o = m.Opened := by
    apply grid_ext hd hwf.2.2
    intro y x
    cases hv : getCell o y x with
    | none =>
      cases hv' : getCell m.Opened y x with
      | none => rfl
      | some b =>
        obtain ⟨u, hu⟩ := getCell_of_inBounds hd (inBounds_of_getCell hwf.2.2 hv')
        rw [hv] at hu
        cases hu
    | some b =>
      obtain ⟨u, hu⟩ := getCell_of_inBounds hwf.2.2 (inBounds_of_getCell hd hv)
      rw [hu]
      cases b with
      | true =>
        have := h x y hv
        unfold isOpen at this
        rw [hu] at this
        exact this.symm
      | false =>
        cases u with
        | false => rfl
        | true =>
          have := hmono x y hu
          unfold isOpen at this
          simp only at this
          rw [hv] at this
          cases this
  subst this
  rfl

/-- `Open` on an opened cell that is not a mine changes nothing, provided the
opened set is closed around its zero cells. -/
theorem Open_opened_noop (m : MineSweeperModel) (x y : Int) (hwf : WF m)
    (hcl : OpenedClosed m) (hb : InBounds m x y) (ho : isOpen m x y) (hnm : ¬ isMine m x y) :
    Open m x y = some m := by
  obtain ⟨m', hopen, hg, -, hsound, -⟩ := Open_spec m x y hwf hb hnm
  rw [hopen]
  congr 1
  apply eq_of_same_opened hwf hg
  intro x' y' ho'
  by_contra hno
  exact hno (Reach_closed hcl (hsound x' y' ho' hno) ho)

/-- The result of `Open` on a non-mine cell keeps the opened set closed around
its zero cells. -/
theorem OpenPost_closed {m m' : MineSweeperModel} {x y : Int} (hcl : OpenedClosed m)
    (hp : OpenPost m x y m') : OpenedClosed m' := by
  obtain ⟨hg, -, -, hcl'⟩ := hp
  obtain ⟨⟨o, rfl, hd⟩, hmono⟩ := hg
  intro x' y' hb' ho' hz x2 y2 hb2 hadj
  by_cases hom : isOpen m x' y'
  · exact hmono _ _ (hcl x' y' hb' hom hz x2 y2 hb2 hadj)
  · exact hcl' x' y' hb' (Or.inr hom) ho' hz x2 y2 hb2 hadj

/-- The "open all" loop never fails on a well-formed state and leaves every cell of
the grid opened. -/
theorem openAll_spec (m : MineSweeperModel) (hwf : WF m) :
    ∃ o, openAll m = some { m with Opened := o } ∧ GridDims o m.Height m.Width ∧
      ∀ x y, InBounds m x y → getCell o y x = some true := by
  unfold openAll
  obtain ⟨s', h1, h2⟩ := foldlM_range
    (fun (s : MineSweeperModel) (i : Nat) =>
      (List.range m.Width.toNat).foldlM (fun (s : MineSweeperModel) (j : Nat) => do
        let o ← setCell s.Opened (i : Int) (j : Int) true
        some { s with Opened := o }) s)
    (fun i s => Grows m s ∧ ∀ x y, InBounds m x y → y < (i : Int) → isOpen s x y)
    m.Height.toNat m
    ⟨Grows_refl hwf, fun x y hb hd => by
      exfalso
      have := hb.2.2.1
      simp only [Nat.cast_zero] at hd
      omega⟩
    (by
      intro i s hi hs
      obtain ⟨s', h1, h2⟩ := foldlM_range
        (fun (s : MineSweeperModel) (j : Nat) => do
          let o ← setCell s.Opened (i : Int) (j : Int) true
          some { s with Opened := o })
        (fun j s => Grows m s ∧
          ∀ x y, InBounds m x y → (y < (i : Int) ∨ (y = (i : Int) ∧ x < (j : Int))) → isOpen s x y)
        m.Width.toNat s
        ⟨hs.1, fun x y hb hd => hs.2 x y hb (by
          have := hb.1
          simp only [Nat.cast_zero] at hd
          omega)⟩
        (by
          intro j s hj hs
          obtain ⟨hg, hdone⟩ := hs
          have hwfs : WF s := Grows_WF hwf hg
          have hbm : InBounds m (j : Int) (i : Int) := by unfold InBounds; omega
          have hbs : InBounds s (j : Int) (i : Int) := by
            obtain ⟨⟨o, rfl, -⟩, -⟩ := hg
            exact hbm
          obtain ⟨o, ho, hg', hiff, -⟩ := setOpened_spec hwfs hbs
          refine ⟨{ s with Opened := o }, by simp [ho], Grows_trans hg hg', ?_⟩
          intro x y hb hd
          rw [hiff]
          by_cases hc : y = (i : Int) ∧ x = (j : Int)
          · exact Or.inl hc
          · exact Or.inr (hdone x y hb (by push_cast at hd; omega)))
      refine ⟨s', h1, h2.1, fun x y hb hd => h2.2 x y hb ?_⟩
      have := hb.2.1
      push_cast at hd
      omega)
  obtain ⟨⟨⟨o, rfl, hd⟩, -⟩, hall⟩ := h2
  refine ⟨o, h1, hd, fun x y hb => hall x y hb ?_⟩
  have := hb.2.2.2
  omega

/-- Whatever `ToggleFlag` returns on a well-formed state differs from it at most
in the Flagged grid, which keeps its dimensions, and in `IsWin`. -/
theorem ToggleFlag_frame (m : MineSweeperModel) (x y : Int) (hwf : WF m)
    (m1 : MineSweeperModel) (h : ToggleFlag m x y = some m1) :
    ∃ fl w, m1 = { m with Flagged := fl, IsWin := w } ∧ GridDims fl m.Height m.Width := by
  cases ho : getCell m.Opened y x with
  | none =>
    unfold ToggleFlag at h
    simp [ho] at h
  | some b =>
    cases b with
    | true =>
      rw [ToggleFlag_of_opened m x y ho] at h
      cases h
      exact ⟨m.Flagged, m.IsWin, rfl, hwf.2.1⟩
    | false =>
      obtain ⟨f, fl, -, -, hwf1, htf⟩ := ToggleFlag_unopened m x y hwf ho
      rw [htf] at h
      cases h
      exact ⟨fl, _, rfl, hwf1.2.1⟩

/-- The three ways `Update` produces its next state: a cursor move (or no change),
an `Open` at the cursor, or a `ToggleFlag` at the cursor followed, when `IsWin` is
set, by the "open all" loop. -/
theorem Update_cases (m : MineSweeperModel) (msg : Msg) (m' : MineSweeperModel) (cmd : Cmd)
    (h : Update m msg = some (m', cmd)) :
    (∃ cx cy, m' = { m with CursorX := cx, CursorY := cy }) ∨
    (msg = Msg.key KeySpaceString ∧ Open m m.CursorX m.CursorY = some m') ∨
    (msg = Msg.key "f" ∧ ∃ m1, ToggleFlag m m.CursorX m.CursorY = some m1 ∧
      ((m1.IsWin = false ∧ m' = m1) ∨ (m1.IsWin = true ∧ openAll m1 = some m'))) := by
  unfold Update at h
  split at h
  · rename_i s
    split_ifs at h with h1 h2 h3 h4 h5 h6 h7 h8 h9 h10 h11
    all_goals first
      | (simp only [Option.some.injEq, Prod.mk.injEq] at h
         obtain ⟨rfl, -⟩ := h
         exact Or.inl ⟨_, _, rfl⟩)
      | skip
    · subst h10
      right; left
      refine ⟨rfl, ?_⟩
      cases ho : Open m m.CursorX m.CursorY with
      | none => simp [ho] at h
      | some m1 =>
        simp only [ho, Option.bind_eq_bind, Option.some_bind] at h
        split_ifs at h <;>
        · simp only [Option.some.injEq, Prod.mk.injEq] at h
          rw [h.1]
    · subst h11
      right; right
      refine ⟨rfl, ?_⟩
      cases ht : ToggleFlag m m.CursorX m.CursorY with
      | none => simp [ht] at h
      | some m1 =>
        refine ⟨m1, rfl, ?_⟩
        simp only [ht, Option.bind_eq_bind, Option.some_bind] at h
        split_ifs at h with hw
        · right
          refine ⟨hw, ?_⟩
          cases hoa : openAll m1 with
          | none => simp [hoa] at h
          | some m2 =>
            simp only [hoa, Option.some_bind, Option.some.injEq, Prod.mk.injEq] at h
            rw [h.1]
        · left
          simp only [Option.some.injEq, Prod.mk.injEq] at h
          exact ⟨by simpa using hw, h.1.symm⟩
  · simp only [Option.some.injEq, Prod.mk.injEq] at h
    obtain ⟨rfl, -⟩ := h
    exact Or.inl ⟨_, _, rfl⟩
  · simp only [Option.some.injEq, Prod.mk.injEq] at h
    obtain ⟨rfl, -⟩ := h
    exact Or.inl ⟨_, _, rfl⟩

theorem InitModel_inv (draws : List (Nat × Nat)) (w h n : Int) (m : MineSweeperModel)
    (hw : 0 < w) (hh : 0 < h) (hn0 : 0 ≤ n) (hinit : InitModel draws w h n = some m) :
    WF m ∧ OpenedClosed m := by
  have hplace : ∃ m1, placeMines draws (emptyModel w h n) = some m1 := by
    unfold InitModel at hinit
    rw [if_neg (by omega), if_neg (by omega)] at hinit
    cases hp : placeMines draws (emptyModel w h n) with
    | none => simp [hp] at hinit
    | some m1 => exact ⟨m1, rfl⟩
  obtain ⟨m1, hp⟩ := hplace
  obtain ⟨b, hi, hwf, -⟩ := InitModel_of_placeMines draws w h n hw hh hn0 m1 hp
  rw [hi] at hinit
  cases hinit
  refine ⟨hwf, ?_⟩
  intro x y _ ho
  have := getCell_replicate _ _ false true y x ho
  cases this

theorem Update_inv (m : MineSweeperModel) (msg : Msg) (m' : MineSweeperModel) (cmd : Cmd)
    (h : Update m msg = some (m', cmd)) (hwf : WF m) (hcl : OpenedClosed m) :
    WF m' ∧ OpenedClosed m' := by
  rcases Update_cases m msg m' cmd h with ⟨cx, cy, rfl⟩ | ⟨-, hopen⟩ | ⟨-, m1, htf, hcase⟩
  · exact ⟨hwf, hcl⟩
  · cases hv : getCell m.Board m.CursorY m.CursorX with
    | none =>
      unfold Open at hopen
      simp [hv] at hopen
    | some v =>
      have hb : InBounds m m.CursorX m.CursorY := inBounds_of_getCell hwf.1 hv
      by_cases hm : isMine m m.CursorX m.CursorY
      · rw [Open_of_mine m _ _ hm] at hopen
        cases hopen
        exact ⟨hwf, hcl⟩
      · obtain ⟨m2, h2, hp⟩ := Open_spec m _ _ hwf hb hm
        rw [h2] at hopen
        cases hopen
        exact ⟨Grows_WF hwf hp.1, OpenPost_closed hcl hp⟩
  · obtain ⟨fl, w, rfl, hfl⟩ := ToggleFlag_frame m _ _ hwf m1 htf
    have hwf1 : WF { m with Flagged := fl, IsWin := w } := ⟨hwf.1, hfl, hwf.2.2⟩
    rcases hcase with ⟨-, rfl⟩ | ⟨-, hoa⟩
    · exact ⟨hwf1, hcl⟩
    · obtain ⟨o, ho, hd, hall⟩ := openAll_spec _ hwf1
      rw [ho] at hoa
      cases hoa
      exact ⟨⟨hwf.1, hfl, hd⟩, fun x y _ _ _ x2 y2 hb2 _ => hall x2 y2 hb2⟩

/-- Every state of a game is well-formed and has its opened set closed around the
opened cells that store zero. -/
theorem Reachable_inv {m : MineSweeperModel} (h : Reachable m) : WF m ∧ OpenedClosed m := by
  induction h with
  | init draws w h n m hw hh hn0 _ hinit => exact InitModel_inv draws w h n m hw hh hn0 hinit
  | step m msg m' cmd _ hupd ih => exact Update_inv m msg m' cmd hupd ih.1 ih.2

theorem Reachable_won11 : Reachable won11 :=
  Reachable.step { emptyModel 1 1 1 with Board := [[-1]] } (Msg.key "f") won11 Cmd.nil
    (Reachable.init [(0, 0)] 1 1 1 _ (by decide) (by decide) (by decide) (by decide)
      (by decide))
    (by decide)

theorem Reachable_flagged21 : Reachable flagged21 :=
  Reachable.step { emptyModel 2 1 1 with Board := [[1, -1]] } (Msg.key "f") flagged21 Cmd.nil
    (Reachable.init [(1, 0)] 2 1 1 _ (by decide) (by decide) (by decide) (by decide)
      (by decide))
    (by decide)

/-- C6, refuted: in the 1x1 game whose cell is a mine, the flag key wins and opens
the mine; `Open(0, 0)` on that opened cell then sets `IsGameOver`. -/
theorem Open_opened_mine_changes :
    Reachable won11 ∧ InBounds won11 0 0 ∧ isOpen won11 0 0 ∧
    Open won11 0 0 = some { won11 with IsGameOver := true } ∧
    Open won11 0 0 ≠ some won11 :=
  ⟨Reachable_won11, by decide, by decide, by decide, by decide⟩

/-- C6, amended: in every state of a game, `Open(x, y)` on an in-bounds cell that is
already opened and is not a mine returns the state unchanged. -/
theorem Open_opened_unchanged (m : MineSweeperModel) (x y : Int) (hr : Reachable m)
    (hb : InBounds m x y) (ho : isOpen m x y) (hnm : ¬ isMine m x y) :
    Open m x y = some m :=
  Open_opened_noop m x y (Reachable_inv hr).1 (Reachable_inv hr).2 hb ho hnm

theorem Reachable_opened21 : Reachable opened21 :=
  Reachable.step flagged21 (Msg.key " ") opened21 Cmd.nil Reachable_flagged21 (by decide)

theorem Open_opened_unchanged_witness :
    Reachable opened21 ∧ InBounds opened21 0 0 ∧ isOpen opened21 0 0 ∧
    ¬ isMine opened21 0 0 ∧ Open opened21 0 0 = some opened21 :=
  ⟨Reachable_opened21, by decide, by decide, by decide,
    Open_opened_unchanged opened21 0 0 Reachable_opened21 (by decide) (by decide) (by decide)⟩

/-! ## The flood fill and the flags -/

theorem foldlM_map_comm {σ α : Type} (T : σ → σ) (f : σ → α → Option σ)
    (h : ∀ s a, f (T s) a = (f s a).map T) :
    ∀ (l : List α) (s : σ), l.foldlM f (T s) = (l.foldlM f s).map T := by
  intro l
  induction l with
  | nil => intro s; rfl
  | cons a l ih =>
    intro s
    rw [List.foldlM_cons, List.foldlM_cons, h]
    cases f s a with
    | none => rfl
    | some s1 => exact ih s1

/-- The flood fill never reads the Flagged grid: replacing it replaces it in the
result and changes nothing else. -/
theorem openCell_flags (F : List (List Bool)) :
    ∀ (fuel : Nat) (m : MineSweeperModel) (x y : Int),
      openCell fuel { m with Flagged := F } x y =
        (openCell fuel m x y).map (fun r => { r with Flagged := F }) := by
  intro fuel
  induction fuel with
  | zero => intro m x y; rfl
  | succ fuel ih =>
    intro m x y
    rw [openCell_succ, openCell_succ]
    cases getCell m.Board y x with
    | none => rfl
    | some v =>
      cases setCell m.Opened y x true with
      | none => rfl
      | some o =>
        simp only [Option.some_bind]
        by_cases hv : v = 0
        · rw [if_neg (by simp [hv]), if_neg (by simp [hv])]
          refine foldlM_map_comm (fun r : MineSweeperModel => { r with Flagged := F })
            (openRow (openCell fuel) x) ?_ [y - 1, y, y + 1] { m with Opened := o }
          intro s i
          unfold openRow
          by_cases hi : i < 0 ∨ i ≥ s.Height
          · rw [if_pos hi, if_pos hi]
            rfl
          · rw [if_neg hi, if_neg hi]
            refine foldlM_map_comm (fun r : MineSweeperModel => { r with Flagged := F })
              (openNeighbour (openCell fuel) i) ?_ [x - 1, x, x + 1] s
            intro s j
            unfold openNeighbour
            by_cases hj : j < 0 ∨ j ≥ s.Width
            · rw [if_pos hj, if_pos hj]
              rfl
            · rw [if_neg hj, if_neg hj]
              cases getCell s.Opened i j with
              | none => rfl
              | some b =>
                cases b with
                | true => rfl
                | false => exact ih s j i
        · rw [if_pos hv, if_pos hv]
          rfl

/-- C7, refuted: in the 2x1 game with a flag on the cell `(0, 0)`, `Open(0, 0)` opens
the flagged cell; and on the 3x3 board with a flag on `(1, 1)`, the flood fill of
`Open(0, 0)` opens the flagged cell `(1, 1)`. -/
theorem Open_opens_flagged :
    Reachable flagged21 ∧ InBounds flagged21 0 0 ∧ isFlagged flagged21 0 0 ∧
    ¬ isOpen flagged21 0 0 ∧ Open flagged21 0 0 = some opened21 ∧ isOpen opened21 0 0 ∧
    isFlagged flagged33 1 1 ∧ ¬ isOpen flagged33 1 1 ∧
    Open flagged33 0 0 = some { flagged33 with
      Opened := [[true, true, true], [true, true, true], [true, true, false]] } :=
  ⟨Reachable_flagged21, by decide, by decide, by decide, by decide, by decide, by decide,
    by decide, by decide⟩

/-- C7, amended: a flag does not block reveal. `Open(x, y)` on an in-bounds cell that
is flagged, not opened and not a mine opens the cell and leaves the Flagged grid as
it was; and `Open` never reads the flags: with any other Flagged grid it returns
the same state but for that grid, flood fill included. -/
theorem Open_ignores_flags (m : MineSweeperModel) (x y : Int) (hwf : WF m)
    (hb : InBounds m x y) (hfl : isFlagged m x y) (_hno : ¬ isOpen m x y)
    (hnm : ¬ isMine m x y) :
    ∃ m', Open m x y = some m' ∧ isOpen m' x y ∧ isFlagged m' x y ∧
      m'.Flagged = m.Flagged ∧
      ∀ F, Open { m with Flagged := F } x y = some { m' with Flagged := F } := by
  obtain ⟨m', hopen, hg, ho, -, -⟩ := Open_spec m x y hwf hb hnm
  have hF : m'.Flagged = m.Flagged := by
    obtain ⟨⟨o, rfl, -⟩, -⟩ := hg
    rfl
  refine ⟨m', hopen, ho, ?_, hF, ?_⟩
  · unfold isFlagged
    rw [hF]
    exact hfl
  · intro F
    obtain ⟨v, hv⟩ := getCell_of_inBounds hwf.1 hb
    have hv1 : v ≠ -1 := by
      intro h
      apply hnm
      unfold isMine
      rw [hv, h]
    unfold Open at hopen ⊢
    simp only [hv, Option.bind_eq_bind, Option.some_bind, if_neg hv1] at hopen ⊢
    have hfuel : openFuel { m with Flagged := F } = openFuel m := rfl
    rw [hfuel, openCell_flags, hopen]
    rfl

theorem Open_ignores_flags_witness :
    WF flagged21 ∧ InBounds flagged21 0 0 ∧ isFlagged flagged21 0 0 ∧
    ¬ isOpen flagged21 0 0 ∧ ¬ isMine flagged21 0 0 ∧
    ∃ m', Open flagged21 0 0 = some m' ∧ isOpen m' 0 0 ∧ isFlagged m' 0 0 ∧
      m'.Flagged = flagged21.Flagged ∧
      ∀ F, Open { flagged21 with Flagged := F } 0 0 = some { m' with Flagged := F } :=
  ⟨by decide, by decide, by decide, by decide, by decide,
    Open_ignores_flags flagged21 0 0 (by decide) (by decide) (by decide) (by decide)
      (by decide)⟩

/-! ## The depth of the flood fill -/

theorem foldlM_some_mono {σ α : Type} (f g : σ → α → Option σ)
    (h : ∀ s a s', f s a = some s' → g s a = some s') :
    ∀ (l : List α) (s r : σ), l.foldlM f s = some r → l.foldlM g s = some r := by
  intro l
  induction l with
  | nil => intro s r hr; exact hr
  | cons a l ih =>
    intro s r hr
    rw [List.foldlM_cons] at hr ⊢
    cases hf : f s a with
    | none =>
      rw [hf] at hr
      cases hr
    | some s1 =>
      rw [hf] at hr
      rw [h s a s1 hf]
      exact ih s1 r hr

/-- More fuel never changes a result the flood fill has already reached. -/
theorem openCell_fuel_succ : ∀ (fuel : Nat) (m : MineSweeperModel) (x y : Int)
    (r : MineSweeperModel), openCell fuel m x y = some r → openCell (fuel + 1) m x y = some r := by
  intro fuel
  induction fuel with
  | zero =>
    intro m x y r h
    cases h
  | succ fuel ih =>
    intro m x y r h
    rw [openCell_succ] at h
    rw [openCell_succ (fuel + 1)]
    cases hv : getCell m.Board y x with
    | none =>
      rw [hv] at h
      cases h
    | some v =>
      rw [hv] at h
      cases ho : setCell m.Opened y x true with
      | none =>
        rw [ho] at h
        cases h
      | some o =>
        rw [ho] at h
        simp only [Option.some_bind] at h ⊢
        by_cases hv0 : v = 0
        · rw [if_neg (by simp [hv0])] at h ⊢
          refine foldlM_some_mono (openRow (openCell fuel) x) (openRow (openCell (fuel + 1)) x)
            ?_ _ _ _ h
          intro s i s' hrow
          unfold openRow at hrow ⊢
          by_cases hi : i < 0 ∨ i ≥ s.Height
          · rw [if_pos hi] at hrow ⊢
            exact hrow
          · rw [if_neg hi] at hrow ⊢
            refine foldlM_some_mono (openNeighbour (openCell fuel) i)
              (openNeighbour (openCell (fuel + 1)) i) ?_ _ _ _ hrow
            intro s j s' hcell
            unfold openNeighbour at hcell ⊢
            by_cases hj : j < 0 ∨ j ≥ s.Width
            · rw [if_pos hj] at hcell ⊢
              exact hcell
            · rw [if_neg hj] at hcell ⊢
              cases hb : getCell s.Opened i j with
              | none =>
                rw [hb] at hcell
                cases hcell
              | some b =>
                rw [hb] at hcell
                cases b with
                | true => exact hcell
                | false => exact ih s j i s' hcell
        · rw [if_pos hv0] at h ⊢
          exact h

theorem openCell_fuel_mono {n k : Nat} (hnk : n ≤ k) (m : MineSweeperModel) (x y : Int)
    (r : MineSweeperModel) (h : openCell n m x y = some r) : openCell k m x y = some r := by
  induction hnk with
  | refl => exact h
  | step _ ih => exact openCell_fuel_succ _ m x y r ih

/-- On a well-formed state the depth `Open` allows is enough: every larger one
gives the same result. -/
theorem openCell_fuel_enough (m : MineSweeperModel) (x y : Int) (hwf : WF m)
    (hb : InBounds m x y) (k : Nat) (hk : openFuel m ≤ k) :
    ∃ r, openCell (openFuel m) m x y = some r ∧ openCell k m x y = some r := by
  obtain ⟨r, hr, -⟩ := openCell_spec (openFuel m) m x y hwf hb (by
    unfold openFuel
    have := unopened_card_le_area m
    split <;> omega)
  exact ⟨r, hr, openCell_fuel_mono hk m x y r hr⟩

/-! ## Cursor moves -/

theorem Update_up (m : MineSweeperModel) (k : String) (hk : k = "up" ∨ k = "k") :
    Update m (Msg.key k) =
      some (if m.CursorY > 0 then { m with CursorY := m.CursorY - 1 } else m, Cmd.nil) := by
  rcases hk with rfl | rfl <;> simp [Update]

theorem Update_down (m : MineSweeperModel) (k : String) (hk : k = "down" ∨ k = "j") :
    Update m (Msg.key k) =
      some (if m.CursorY < m.Height - 1 then { m with CursorY := m.CursorY + 1 } else m,
        Cmd.nil) := by
  rcases hk with rfl | rfl <;> simp [Update]

theorem Update_left (m : MineSweeperModel) (k : String) (hk : k = "left" ∨ k = "h") :
    Update m (Msg.key k) =
      some (if m.CursorX > 0 then { m with CursorX := m.CursorX - 1 } else m, Cmd.nil) := by
  rcases hk with rfl | rfl <;> simp [Update]

theorem Update_right (m : MineSweeperModel) (k : String) (hk : k = "right" ∨ k = "l") :
    Update m (Msg.key k) =
      some (if m.CursorX < m.Width - 1 then { m with CursorX := m.CursorX + 1 } else m,
        Cmd.nil) := by
  rcases hk with rfl | rfl <;> simp [Update]

/-- C16: with the cursor in bounds, each of the four move keys (arrow name or
letter) makes `Update` return the state with the one cursor coordinate of its axis
moved by one cell, or the state itself when the cursor is already at that edge;
no other field changes and the command is `nil`. -/
theorem Update_move (m : MineSweeperModel) (hb : InBounds m m.CursorX m.CursorY) :
    (∀ k, k = "up" ∨ k = "k" → Update m (Msg.key k) =
      some ({ m with CursorY := if m.CursorY = 0 then m.CursorY else m.CursorY - 1 },
        Cmd.nil)) ∧
    (∀ k, k = "down" ∨ k = "j" → Update m (Msg.key k) =
      some ({ m with
        CursorY := if m.CursorY = m.Height - 1 then m.CursorY else m.CursorY + 1 },
        Cmd.nil)) ∧
    (∀ k, k = "left" ∨ k = "h" → Update m (Msg.key k) =
      some ({ m with CursorX := if m.CursorX = 0 then m.CursorX else m.CursorX - 1 },
        Cmd.nil)) ∧
    (∀ k, k = "right" ∨ k = "l" → Update m (Msg.key k) =
      some ({ m with
        CursorX := if m.CursorX = m.Width - 1 then m.CursorX else m.CursorX + 1 },
        Cmd.nil)) := by
  obtain ⟨hx0, hxw, hy0, hyh⟩ := hb
  refine ⟨fun k hk => ?_, fun k hk => ?_, fun k hk => ?_, fun k hk => ?_⟩
  · rw [Update_up m k hk]
    by_cases h : m.CursorY = 0
    · rw [if_neg (by omega), if_pos h]
    · rw [if_pos (by omega), if_neg h]
  · rw [Update_down m k hk]
    by_cases h : m.CursorY = m.Height - 1
    · rw [if_neg (by omega), if_pos h]
    · rw [if_pos (by omega), if_neg h]
  · rw [Update_left m k hk]
    by_cases h : m.CursorX = 0
    · rw [if_neg (by omega), if_pos h]
    · rw [if_pos (by omega), if_neg h]
  · rw [Update_right m k hk]
    by_cases h : m.CursorX = m.Width - 1
    · rw [if_neg (by omega), if_pos h]
    · rw [if_pos (by omega), if_neg h]

theorem Update_move_witness :
    InBounds centre33 centre33.CursorX centre33.CursorY ∧
    Update centre33 (Msg.key "up") = some ({ centre33 with CursorY := 0 }, Cmd.nil) ∧
    Update board33 (Msg.key "h") = some (board33, Cmd.nil) ∧
    Update centre33 (Msg.key "l") = some ({ centre33 with CursorX := 2 }, Cmd.nil) :=
  ⟨by decide, (Update_move centre33 (by decide)).1 "up" (Or.inl rfl),
    (Update_move board33 (by decide)).2.2.1 "h" (Or.inr rfl),
    (Update_move centre33 (by decide)).2.2.2 "l" (Or.inr rfl)⟩

/-! ## What the operations leave unchanged, on any state -/

/-- A loop keeps an invariant that each of its iterations keeps, whenever it ends. -/
theorem foldlM_inv {σ α : Type} (f : σ → α → Option σ) (P : σ → Prop)
    (h : ∀ s a s', P s → f s a = some s' → P s') :
    ∀ (l : List α) (s r : σ), P s → l.foldlM f s = some r → P r := by
  intro l
  induction l with
  | nil =>
    intro s r hs hr
    cases hr
    exact hs
  | cons a l ih =>
    intro s r hs hr
    rw [List.foldlM_cons] at hr
    cases hf : f s a with
    | none =>
      rw [hf] at hr
      cases hr
    | some s1 =>
      rw [hf] at hr
      exact ih s1 r (h s a s1 hs hf) hr

/-- On any state, whatever the flood fill returns differs from its input in the
Opened grid only. -/
theorem openCell_frame : ∀ (fuel : Nat) (m : MineSweeperModel) (x y : Int)
    (r : MineSweeperModel), openCell fuel m x y = some r → ∃ o, r = { m with Opened := o } := by
  intro fuel
  induction fuel with
  | zero =>
    intro m x y r h
    cases h
  | succ fuel ih =>
    intro m x y r h
    rw [openCell_succ] at h
    cases hv : getCell m.Board y x with
    | none =>
      rw [hv] at h
      cases h
    | some v =>
      rw [hv] at h
      cases ho : setCell m.Opened y x true with
      | none =>
        rw [ho] at h
        cases h
      | some o =>
        rw [ho] at h
        simp only [Option.some_bind] at h
        by_cases hv0 : v = 0
        · rw [if_neg (by simp [hv0])] at h
          refine foldlM_inv (openRow (openCell fuel) x)
            (fun s => ∃ o, s = { m with Opened := o }) ?_ _ _ _ ⟨o, rfl⟩ h
          intro s i s' hs hrow
          unfold openRow at hrow
          by_cases hi : i < 0 ∨ i ≥ s.Height
          · rw [if_pos hi] at hrow
            cases hrow
            exact hs
          · rw [if_neg hi] at hrow
            refine foldlM_inv (openNeighbour (openCell fuel) i)
              (fun s => ∃ o, s = { m with Opened := o }) ?_ _ _ _ hs hrow
            intro s j s' hs hcell
            unfold openNeighbour at hcell
            by_cases hj : j < 0 ∨ j ≥ s.Width
            · rw [if_pos hj] at hcell
              cases hcell
              exact hs
            · rw [if_neg hj] at hcell
              cases hb : getCell s.Opened i j with
              | none =>
                rw [hb] at hcell
                cases hcell
              | some b =>
                rw [hb] at hcell
                cases b with
                | true =>
                  cases hcell
                  exact hs
                | false =>
                  obtain ⟨o1, rfl⟩ := hs
                  obtain ⟨o2, ho2⟩ := ih _ j i s' hcell
                  exact ⟨o2, ho2⟩
        · rw [if_pos hv0] at h
          cases h
          exact ⟨o, rfl⟩

/-- On any state, `Open` either finds a mine and sets `IsGameOver`, or finds none
and changes the Opened grid only. -/
theorem Open_frame (m : MineSweeperModel) (x y : Int) (r : MineSweeperModel)
    (h : Open m x y = some r) :
    (isMine m x y ∧ r = { m with IsGameOver := true }) ∨
    (¬ isMine m x y ∧ ∃ o, r = { m with Opened := o }) := by
  unfold Open at h
  cases hv : getCell m.Board y x with
  | none => simp [hv] at h
  | some v =>
    simp only [hv, Option.bind_eq_bind, Option.some_bind] at h
    by_cases hv1 : v = -1
    · rw [if_pos hv1] at h
      cases h
      left
      refine ⟨?_, rfl⟩
      unfold isMine
      rw [hv, hv1]
    · rw [if_neg hv1] at h
      right
      refine ⟨?_, openCell_frame _ m x y r h⟩
      unfold isMine
      rw [hv]
      intro h'
      exact hv1 (Option.some.inj h')

/-- On any state, `ToggleFlag` changes at most the Flagged grid and `IsWin`, and
never unsets `IsWin`. -/
theorem ToggleFlag_frame_any (m : MineSweeperModel) (x y : Int) (r : MineSweeperModel)
    (h : ToggleFlag m x y = some r) :
    ∃ fl w, r = { m with Flagged := fl, IsWin := w } ∧ (m.IsWin = true → w = true) := by
  unfold ToggleFlag at h
  cases ho : getCell m.Opened y x with
  | none => simp [ho] at h
  | some b =>
    simp only [ho, Option.bind_eq_bind, Option.some_bind] at h
    cases b with
    | true =>
      simp only [if_true, Option.some.injEq] at h
      subst h
      exact ⟨m.Flagged, m.IsWin, rfl, fun hw => hw⟩
    | false =>
      simp only [Bool.false_eq_true, if_false] at h
      cases hf : getCell m.Flagged y x with
      | none => simp [hf] at h
      | some f =>
        simp only [hf, Option.some_bind] at h
        cases hs : setCell m.Flagged y x (!f) with
        | none => simp [hs] at h
        | some fl =>
          simp only [hs, Option.some_bind] at h
          cases hr : rightFlags { m with Flagged := fl } with
          | none => simp [hr] at h
          | some n =>
            simp only [hr, Option.some_bind] at h
            split at h
            · cases h
              exact ⟨fl, true, rfl, fun _ => rfl⟩
            · cases h
              exact ⟨fl, m.IsWin, rfl, fun hw => hw⟩

/-- On any state, the "open all" loop changes the Opened grid only. -/
theorem openAll_frame (m : MineSweeperModel) (r : MineSweeperModel) (h : openAll m = some r) :
    ∃ o, r = { m with Opened := o } := by
  unfold openAll at h
  refine foldlM_inv _ (fun s => ∃ o, s = { m with Opened := o }) ?_ _ _ _ ⟨m.Opened, rfl⟩ h
  intro s i s' hs hrow
  refine foldlM_inv _ (fun s => ∃ o, s = { m with Opened := o }) ?_ _ _ _ hs hrow
  intro s j s' hs hcell
  obtain ⟨o1, rfl⟩ := hs
  cases hset : setCell o1 (i : Int) (j : Int) true with
  | none => simp [hset] at hcell
  | some o2 =>
    simp only [hset, Option.bind_eq_bind, Option.some_bind, Option.some.injEq] at hcell
    exact ⟨o2, hcell.symm⟩

/-- On any state, `Update` keeps the dimensions, the mine count and the board, never
unsets `IsWin`, and ends with `IsGameOver` set exactly when it was set before or
the message is the reveal key with the cursor on a mine. -/
theorem Update_frame (m : MineSweeperModel) (msg : Msg) (m' : MineSweeperModel) (cmd : Cmd)
    (h : Update m msg = some (m', cmd)) :
    m'.Width = m.Width ∧ m'.Height = m.Height ∧ m'.NumberOfMines = m.NumberOfMines ∧
    m'.Board = m.Board ∧ (m.IsWin = true → m'.IsWin = true) ∧
    (m'.IsGameOver = true ↔
      m.IsGameOver = true ∨ (msg = Msg.key KeySpaceString ∧ isMine m m.CursorX m.CursorY)) := by
  rcases Update_cases m msg m' cmd h with ⟨cx, cy, rfl⟩ | ⟨hmsg, hopen⟩ | ⟨hmsg, m1, htf, hcase⟩
  · refine ⟨rfl, rfl, rfl, rfl, fun hw => hw, ?_⟩
    constructor
    · intro hg
      exact Or.inl hg
    · rintro (hg | ⟨hmsg, hmine⟩)
      · exact hg
      · subst hmsg
        have hmine' := hmine
        unfold isMine at hmine'
        unfold Update at h
        simp [KeySpaceString, Open, hmine'] at h
        exact h.1.1
  · rcases Open_frame m _ _ m' hopen with ⟨hmine, rfl⟩ | ⟨hnm, o, rfl⟩
    · exact ⟨rfl, rfl, rfl, rfl, fun hw => hw, fun _ => Or.inr ⟨hmsg, hmine⟩, fun _ => rfl⟩
    · refine ⟨rfl, rfl, rfl, rfl, fun hw => hw, fun hg => Or.inl hg, ?_⟩
      rintro (hg | ⟨-, hmine⟩)
      · exact hg
      · exact absurd hmine hnm
  · obtain ⟨fl, w, rfl, hw⟩ := ToggleFlag_frame_any m _ _ m1 htf
    have hne : Msg.key "f" ≠ Msg.key KeySpaceString := by decide
    rcases hcase with ⟨-, rfl⟩ | ⟨-, hoa⟩
    · refine ⟨rfl, rfl, rfl, rfl, hw, fun hg => Or.inl hg, ?_⟩
      rintro (hg | ⟨hsp, -⟩)
      · exact hg
      · exact absurd (hmsg ▸ hsp) hne
    · obtain ⟨o, rfl⟩ := openAll_frame _ m' hoa
      refine ⟨rfl, rfl, rfl, rfl, hw, fun hg => Or.inl hg, ?_⟩
      rintro (hg | ⟨hsp, -⟩)
      · exact hg
      · exact absurd (hmsg ▸ hsp) hne

/-! ## Update returns on well-formed states -/

theorem Open_total (m : MineSweeperModel) (x y : Int) (hwf : WF m) (hb : InBounds m x y) :
    ∃ m', Open m x y = some m' := by
  by_cases hm : isMine m x y
  · exact ⟨_, Open_of_mine m x y hm⟩
  · obtain ⟨m', h, -⟩ := Open_spec m x y hwf hb hm
    exact ⟨m', h⟩

theorem ToggleFlag_total (m : MineSweeperModel) (x y : Int) (hwf : WF m)
    (hb : InBounds m x y) : ∃ m', ToggleFlag m x y = some m' := by
  by_cases ho : isOpen m x y
  · exact ⟨m, ToggleFlag_of_opened m x y ho⟩
  · obtain ⟨f, fl, -, -, -, h⟩ :=
      ToggleFlag_unopened m x y hwf (getCell_false_of_not_open hwf hb ho)
    exact ⟨_, h⟩

/-- On a well-formed state with the cursor in bounds `Update` returns for every
message: no index is out of range and the flood fill has fuel enough. -/
theorem Update_total (m : MineSweeperModel) (msg : Msg) (hwf : WF m)
    (hb : InBounds m m.CursorX m.CursorY) : ∃ m' cmd, Update m msg = some (m', cmd) := by
  obtain ⟨m1, hopen⟩ := Open_total m _ _ hwf hb
  obtain ⟨m2, htf⟩ := ToggleFlag_total m _ _ hwf hb
  obtain ⟨fl, w, hm2, hfl⟩ := ToggleFlag_frame m _ _ hwf m2 htf
  have hwf2 : WF m2 := by
    rw [hm2]
    exact ⟨hwf.1, hfl, hwf.2.2⟩
  obtain ⟨o, hoa, -, -⟩ := openAll_spec m2 hwf2
  unfold Update
  split
  · split_ifs
    all_goals first
      | exact ⟨_, _, rfl⟩
      | skip
    · rw [hopen]
      simp only [Option.bind_eq_bind, Option.some_bind]
      split_ifs <;> exact ⟨_, _, rfl⟩
    · rw [htf]
      simp only [Option.bind_eq_bind, Option.some_bind]
      split_ifs
      · rw [hoa]
        exact ⟨_, _, rfl⟩
      · exact ⟨_, _, rfl⟩
  · exact ⟨_, _, rfl⟩
  · exact ⟨_, _, rfl⟩

/-- C12: from a state with `IsGameOver` false, `Update` ends with `IsGameOver` true
exactly when the message is the reveal key and the cell under the cursor is a
mine; and it does return when the state is well-formed with the cursor in bounds. -/
theorem Update_lost_iff (m : MineSweeperModel) (msg : Msg) (hgo : m.IsGameOver = false) :
    (WF m → InBounds m m.CursorX m.CursorY → ∃ m' cmd, Update m msg = some (m', cmd)) ∧
    ∀ m' cmd, Update m msg = some (m', cmd) →
      (m'.IsGameOver = true ↔
        msg = Msg.key KeySpaceString ∧ isMine m m.CursorX m.CursorY) := by
  refine ⟨fun hwf hb => Update_total m msg hwf hb, ?_⟩
  intro m' cmd h
  rw [(Update_frame m msg m' cmd h).2.2.2.2.2, hgo]
  simp

theorem Update_lost_iff_witness :
    onMine33.IsGameOver = false ∧
    Update onMine33 (Msg.key " ") = some ({ onMine33 with IsGameOver := true }, Cmd.quit) ∧
    (({ onMine33 with IsGameOver := true } : MineSweeperModel).IsGameOver = true ↔
      Msg.key " " = Msg.key KeySpaceString ∧ isMine onMine33 onMine33.CursorX onMine33.CursorY) :=
  ⟨by decide, by decide,
    (Update_lost_iff onMine33 (Msg.key " ") (by decide)).2 _ Cmd.quit (by decide)⟩

/-! ## calculateRemainingFlags -/

theorem wrap64_of_range (z : Int) (h1 : -(2 : Int) ^ 63 ≤ z) (h2 : z < (2 : Int) ^ 63) :
    wrap64 z = z := by
  unfold wrap64
  have e63 : (2 : Int) ^ 63 = 9223372036854775808 := by norm_num
  have e64 : (2 : Int) ^ 64 = 18446744073709551616 := by norm_num
  rw [e63] at h1 h2 ⊢
  rw [e64]
  omega

theorem iterate_decrement (k : Nat) (n : Int) (h1 : -(2 : Int) ^ 63 ≤ n - k)
    (h2 : n < (2 : Int) ^ 63) : (fun r : Int => wrap64 (r - 1))^[k] n = n - k := by
  induction k with
  | zero => simp
  | succ k ih =>
    have hk : -(2 : Int) ^ 63 ≤ n - k := by
      push_cast at h1
      omega
    rw [Function.iterate_succ_apply', ih hk]
    push_cast at h1 ⊢
    rw [wrap64_of_range _ (by omega) (by omega)]
    ring

theorem calculateRemainingFlags_eq (m : MineSweeperModel) (hwf : WF m)
    (hlo : -(2 : Int) ^ 63 ≤ m.NumberOfMines - (flaggedCells m).card)
    (hhi : m.NumberOfMines < (2 : Int) ^ 63) :
    calculateRemainingFlags m = some (m.NumberOfMines - (flaggedCells m).card) := by
  unfold calculateRemainingFlags
  have h := countLoop m.Height.toNat m.Width.toNat
    (fun (r : Int) i j => do
      let f ← getCell m.Flagged (i : Int) (j : Int)
      if f then some (wrap64 (r - 1)) else some r)
    (fun r : Int => wrap64 (r - 1))
    (fun i j => isFlagged m j i)
    (by
      intro i j c hi hj
      have hb : InBounds m (j : Int) (i : Int) := by unfold InBounds; omega
      obtain ⟨f, hf⟩ := getCell_of_inBounds hwf.2.1 hb
      simp only [hf, isFlagged, Option.bind_eq_bind, Option.some_bind, Option.some.injEq]
      cases f <;> simp)
    m.NumberOfMines
  rw [h]
  have hc : (Finset.filter (fun q : Nat × Nat => isFlagged m q.2 q.1)
      (Finset.range m.Height.toNat ×ˢ Finset.range m.Width.toNat)) = flaggedCells m := rfl
  rw [hc, iterate_decrement _ _ hlo hhi]

/-- C17: `calculateRemainingFlags` returns `NumberOfMines` minus the number of
flagged cells of the grid, as a signed integer that is not clamped at zero, on
every well-formed state for which that difference fits the 64-bit `int`; it is a
function of the state and writes nothing. -/
theorem calculateRemainingFlags_spec (m : MineSweeperModel) (hwf : WF m)
    (hlo : -(2 : Int) ^ 63 ≤ m.NumberOfMines - (flaggedCells m).card)
    (hhi : m.NumberOfMines < (2 : Int) ^ 63) :
    calculateRemainingFlags m = some (m.NumberOfMines - (flaggedCells m).card) ∧
    (m.NumberOfMines < (flaggedCells m).card →
      ∃ r, calculateRemainingFlags m = some r ∧ r < 0) := by
  have h := calculateRemainingFlags_eq m hwf hlo hhi
  refine ⟨h, fun hlt => ⟨_, h, ?_⟩⟩
  omega

theorem calculateRemainingFlags_spec_witness :
    WF twoFlags22 ∧ calculateRemainingFlags twoFlags22 = some (-1) ∧
    (calculateRemainingFlags twoFlags22 =
        some (twoFlags22.NumberOfMines - (flaggedCells twoFlags22).card) ∧
      (twoFlags22.NumberOfMines < (flaggedCells twoFlags22).card →
        ∃ r, calculateRemainingFlags twoFlags22 = some r ∧ r < 0)) :=
  ⟨by decide, by decide,
    calculateRemainingFlags_spec twoFlags22 (by decide) (by decide) (by decide)⟩

/-! ## Termination of the flood fill -/

theorem cells_card_le_area (m : MineSweeperModel) :
    (cells m).card ≤ (m.Height * m.Width).toNat := by
  unfold cells
  rw [Finset.card_product, Finset.card_range, Finset.card_range]
  by_cases hh : 0 ≤ m.Height
  · by_cases hw : 0 ≤ m.Width
    · have h1 := Int.toNat_of_nonneg hh
      have h2 := Int.toNat_of_nonneg hw
      have h3 : m.Height * m.Width = ((m.Height.toNat * m.Width.toNat : Nat) : Int) := by
        push_cast
        rw [h1, h2]
      rw [h3, Int.toNat_natCast]
    · have : m.Width.toNat = 0 := by omega
      rw [this]
      simp
  · have : m.Height.toNat = 0 := by omega
    rw [this]
    simp

/-- The depth `open(x, y)` needs, the unopened cells plus one when `(x, y)` is
already opened, is at most the area of the grid. -/
theorem open_depth_le_area (m : MineSweeperModel) (x y : Int) (hb : InBounds m x y) :
    (unopenedCells m).card + (if isOpen m x y then 1 else 0) ≤ (m.Height * m.Width).toNat := by
  by_cases ho : isOpen m x y
  · rw [if_pos ho]
    have hx : ((x.toNat : Nat) : Int) = x := Int.toNat_of_nonneg hb.1
    have hy : ((y.toNat : Nat) : Int) = y := Int.toNat_of_nonneg hb.2.2.1
    have hlt : (unopenedCells m).card < (cells m).card := by
      apply Finset.card_lt_card
      unfold unopenedCells
      rw [Finset.filter_ssubset]
      refine ⟨(y.toNat, x.toNat), mem_cells_of_inBounds hb, ?_⟩
      simp only [hx, hy]
      unfold isOpen at ho
      rw [ho]
      simp
    have := cells_card_le_area m
    omega
  · rw [if_neg ho]
    have := unopened_card_le_area m
    omega

/-- C18: on every well-formed grid, board and Opened state, the flood fill
`open(x, y)` on an in-bounds cell terminates within a recursion depth of the
number of unopened cells (one more when `(x, y)` is already opened), which is at most
`Height * Width`; it never closes a cell, and it opens `(x, y)` when that cell was
unopened, so the number of unopened cells strictly decreases along the recursion. -/
theorem openCell_terminates (m : MineSweeperModel) (x y : Int) (hwf : WF m)
    (hb : InBounds m x y) :
    ∃ r, openCell (m.Height * m.Width).toNat m x y = some r ∧
      (∀ k, (unopenedCells m).card + (if isOpen m x y then 1 else 0) ≤ k →
        openCell k m x y = some r) ∧
      (unopenedCells r).card ≤ (unopenedCells m).card ∧
      (¬ isOpen m x y → (unopenedCells r).card < (unopenedCells m).card) := by
  obtain ⟨r, hr, hg, ho, -, -⟩ := openCell_spec _ m x y hwf hb (le_refl _)
  refine ⟨r, openCell_fuel_mono (open_depth_le_area m x y hb) m x y r hr,
    fun k hk => openCell_fuel_mono hk m x y r hr, unopened_card_le hwf hg,
    fun hno => unopened_card_lt hwf hg x y hb hno ho⟩

theorem openCell_terminates_witness :
    WF board33 ∧ InBounds board33 0 0 ∧
    ∃ r, openCell (board33.Height * board33.Width).toNat board33 0 0 = some r ∧
      (∀ k, (unopenedCells board33).card + (if isOpen board33 0 0 then 1 else 0) ≤ k →
        openCell k board33 0 0 = some r) ∧
      (unopenedCells r).card ≤ (unopenedCells board33).card ∧
      (¬ isOpen board33 0 0 → (unopenedCells r).card < (unopenedCells board33).card) :=
  ⟨by decide, by decide, openCell_terminates board33 0 0 (by decide) (by decide)⟩

/-! ## Games of any mine count: the cursor, and no index out of range -/

theorem Reachable_toWH {m : MineSweeperModel} (h : Reachable m) : ReachableWH m := by
  induction h with
  | init draws w h n m hw hh _ _ hinit => exact ReachableWH.init draws w h n m hw hh hinit
  | step m msg m' cmd _ hupd ih => exact ReachableWH.step m msg m' cmd ih hupd

/-- The loop of `placeMines` keeps the state well-formed and touches only the board. -/
theorem placeMinesFrom_frame (draws : List (Nat × Nat)) :
    ∀ (i : Int) (m m' : MineSweeperModel), WF m → placeMinesFrom draws i m = some m' →
      WF m' ∧ ∃ b, m' = { m with Board := b } := by
  induction draws with
  | nil =>
    intro i m m' hwf h
    unfold placeMinesFrom at h
    split at h
    · cases h
    · cases h
      exact ⟨hwf, m.Board, rfl⟩
  | cons d rest ih =>
    intro i m m' hwf h
    obtain ⟨rx, ry⟩ := d
    unfold placeMinesFrom at h
    split at h
    · simp only [Option.bind_eq_bind, Option.bind_eq_some] at h
      obtain ⟨x, _, y, _, v, hv, h⟩ := h
      split at h
      · exact ih _ m m' hwf h
      · simp only [Option.bind_eq_some] at h
        obtain ⟨b, hb, h⟩ := h
        have hwf' : WF { m with Board := b } := ⟨setCell_dims hb hwf.1, hwf.2.1, hwf.2.2⟩
        obtain ⟨h1, b', h3⟩ := ih _ _ m' hwf' h
        exact ⟨h1, b', h3⟩
    · cases h
      exact ⟨hwf, m.Board, rfl⟩

/-- Whatever `InitModel` returns for `width > 0` and `height > 0` is the empty state
with some well-formed board. -/
theorem InitModel_shape (draws : List (Nat × Nat)) (w h n : Int) (m : MineSweeperModel)
    (hw : 0 < w) (hh : 0 < h) (hinit : InitModel draws w h n = some m) :
    ∃ b, m = { emptyModel w h n with Board := b } ∧ WF m := by
  unfold InitModel at hinit
  rw [if_neg (by omega), if_neg (by omega)] at hinit
  cases hp : placeMines draws (emptyModel w h n) with
  | none => simp [hp] at hinit
  | some m1 =>
    simp only [hp, Option.bind_eq_bind, Option.some_bind] at hinit
    have hwf0 : WF (emptyModel w h n) := emptyModel_WF w h n (by omega) (by omega)
    obtain ⟨hwf1, b1, rfl⟩ := placeMinesFrom_frame draws 0 _ m1 hwf0 hp
    obtain ⟨b, hfill, hd, -, -⟩ := fillCounts_spec _ hwf1
    have hfill' : fillCounts w h { emptyModel w h n with Board := b1 } =
        some { emptyModel w h n with Board := b } := hfill
    rw [hfill'] at hinit
    cases hinit
    exact ⟨b, rfl, hd, hwf0.2.1, hwf0.2.2⟩

/-- How `Update` moves the cursor: not at all, or by one cell along one axis under
the guard of the key that moves it. -/
theorem Update_cursor_cases (m : MineSweeperModel) (msg : Msg) (m' : MineSweeperModel)
    (cmd : Cmd) (h : Update m msg = some (m', cmd)) :
    (m'.CursorX = m.CursorX ∧ m'.CursorY = m.CursorY) ∨
    (m'.CursorX = m.CursorX ∧ m'.CursorY = m.CursorY - 1 ∧ m.CursorY > 0) ∨
    (m'.CursorX = m.CursorX ∧ m'.CursorY = m.CursorY + 1 ∧ m.CursorY < m.Height - 1) ∨
    (m'.CursorY = m.CursorY ∧ m'.CursorX = m.CursorX - 1 ∧ m.CursorX > 0) ∨
    (m'.CursorY = m.CursorY ∧ m'.CursorX = m.CursorX + 1 ∧ m.CursorX < m.Width - 1) := by
  rcases Update_cases m msg m' cmd h with ⟨cx, cy, -⟩ | ⟨-, hopen⟩ | ⟨-, m1, htf, hcase⟩
  · unfold Update at h
    split at h
    · split_ifs at h with h1 h2 h3 h4 h5 h6 h7 h8 h9 h10 h11
      all_goals first
        | (simp only [Option.some.injEq, Prod.mk.injEq] at h
           obtain ⟨rfl, -⟩ := h
           simp only [true_and, and_self, true_or]
           done)
        | (simp only [Option.some.injEq, Prod.mk.injEq] at h
           obtain ⟨rfl, -⟩ := h
           simp only [true_and, and_true, gt_iff_lt]
           omega)
        | skip
      · cases ho : Open m m.CursorX m.CursorY with
        | none => simp [ho] at h
        | some m1 =>
          simp only [ho, Option.bind_eq_bind, Option.some_bind] at h
          have hm1 : m' = m1 := by
            split_ifs at h <;>
            · simp only [Option.some.injEq, Prod.mk.injEq] at h
              exact h.1.symm
          subst hm1
          rcases Open_frame m _ _ m' ho with ⟨-, rfl⟩ | ⟨-, o, rfl⟩
          · exact Or.inl ⟨rfl, rfl⟩
          · exact Or.inl ⟨rfl, rfl⟩
      · cases ht : ToggleFlag m m.CursorX m.CursorY with
        | none => simp [ht] at h
        | some m1 =>
          obtain ⟨fl, w, rfl, -⟩ := ToggleFlag_frame_any m _ _ m1 ht
          simp only [ht, Option.bind_eq_bind, Option.some_bind] at h
          split_ifs at h
          · cases hoa : openAll { m with Flagged := fl, IsWin := w } with
            | none => simp [hoa] at h
            | some m2 =>
              obtain ⟨o, rfl⟩ := openAll_frame _ m2 hoa
              simp only [hoa, Option.some_bind, Option.some.injEq, Prod.mk.injEq] at h
              obtain ⟨rfl, -⟩ := h
              exact Or.inl ⟨rfl, rfl⟩
          · simp only [Option.some.injEq, Prod.mk.injEq] at h
            obtain ⟨rfl, -⟩ := h
            exact Or.inl ⟨rfl, rfl⟩
    · simp only [Option.some.injEq, Prod.mk.injEq] at h
      obtain ⟨rfl, -⟩ := h
      exact Or.inl ⟨rfl, rfl⟩
    · simp only [Option.some.injEq, Prod.mk.injEq] at h
      obtain ⟨rfl, -⟩ := h
      exact Or.inl ⟨rfl, rfl⟩
  · rcases Open_frame m _ _ m' hopen with ⟨-, rfl⟩ | ⟨-, o, rfl⟩
    · exact Or.inl ⟨rfl, rfl⟩
    · exact Or.inl ⟨rfl, rfl⟩
  · obtain ⟨fl, w, rfl, -⟩ := ToggleFlag_frame_any m _ _ m1 htf
    rcases hcase with ⟨-, rfl⟩ | ⟨-, hoa⟩
    · exact Or.inl ⟨rfl, rfl⟩
    · obtain ⟨o, rfl⟩ := openAll_frame _ m' hoa
      exact Or.inl ⟨rfl, rfl⟩

/-- `Update` keeps the cursor inside the grid. -/
theorem Update_cursor (m : MineSweeperModel) (msg : Msg) (m' : MineSweeperModel) (cmd : Cmd)
    (h : Update m msg = some (m', cmd)) (hb : InBounds m m.CursorX m.CursorY) :
    InBounds m' m'.CursorX m'.CursorY := by
  obtain ⟨hw, hh, -⟩ := Update_frame m msg m' cmd h
  have hc := Update_cursor_cases m msg m' cmd h
  unfold InBounds at hb ⊢
  rw [hw, hh]
  omega

/-- Every state of a game constructed with `width > 0` and `height > 0` is
well-formed, has its opened set closed around its zero cells, and has the cursor
inside the grid. -/
theorem ReachableWH_inv {m : MineSweeperModel} (h : ReachableWH m) :
    WF m ∧ OpenedClosed m ∧ InBounds m m.CursorX m.CursorY := by
  induction h with
  | init draws w h n m hw hh hinit =>
    obtain ⟨b, rfl, hwf⟩ := InitModel_shape draws w h n m hw hh hinit
    refine ⟨hwf, ?_, ?_⟩
    · intro x y _ ho
      have := getCell_replicate _ _ false true y x ho
      cases this
    · exact ⟨le_refl _, hw, le_refl _, hh⟩
  | step m msg m' cmd _ hupd ih =>
    obtain ⟨h1, h2⟩ := Update_inv m msg m' cmd hupd ih.1 ih.2.1
    exact ⟨h1, h2, Update_cursor m msg m' cmd hupd ih.2.2⟩

theorem ReachableWH_start21 : ReachableWH start21 :=
  ReachableWH.init [(1, 0)] 2 1 1 start21 (by decide) (by decide) (by decide)

theorem ReachableWH_right21 : ReachableWH right21 :=
  ReachableWH.step start21 (Msg.key "right") right21 Cmd.nil ReachableWH_start21 (by decide)

/-- C15: in every state of a game constructed with `width > 0` and `height > 0`, after
any sequence of messages, the cursor is inside the grid:
`0 <= CursorX <= Width-1` and `0 <= CursorY <= Height-1`. -/
theorem cursor_in_grid (m : MineSweeperModel) (h : ReachableWH m) :
    0 ≤ m.CursorX ∧ m.CursorX ≤ m.Width - 1 ∧ 0 ≤ m.CursorY ∧ m.CursorY ≤ m.Height - 1 := by
  obtain ⟨-, -, hx0, hxw, hy0, hyh⟩ := ReachableWH_inv h
  omega

theorem cursor_in_grid_witness :
    ReachableWH right21 ∧ right21.CursorX = 1 ∧
    (0 ≤ right21.CursorX ∧ right21.CursorX ≤ right21.Width - 1 ∧
      0 ≤ right21.CursorY ∧ right21.CursorY ≤ right21.Height - 1) :=
  ⟨ReachableWH_right21, by decide, cursor_in_grid right21 ReachableWH_right21⟩

theorem calculateRemainingFlags_total (m : MineSweeperModel) (hwf : WF m) :
    ∃ r, calculateRemainingFlags m = some r := by
  unfold calculateRemainingFlags
  have h := countLoop m.Height.toNat m.Width.toNat
    (fun (r : Int) i j => do
      let f ← getCell m.Flagged (i : Int) (j : Int)
      if f then some (wrap64 (r - 1)) else some r)
    (fun r : Int => wrap64 (r - 1))
    (fun i j => isFlagged m j i)
    (by
      intro i j c hi hj
      have hb : InBounds m (j : Int) (i : Int) := by unfold InBounds; omega
      obtain ⟨f, hf⟩ := getCell_of_inBounds hwf.2.1 hb
      simp only [hf, isFlagged, Option.bind_eq_bind, Option.some_bind, Option.some.injEq]
      cases f <;> simp)
    m.NumberOfMines
  exact ⟨_, h⟩

/-- C19: in every state of a game constructed with `width > 0` and `height > 0`, every
operation returns: `Update` on every message, and `Open`, the flood fill `open`,
`ToggleFlag` and `countMines` on every in-bounds cell (the cursor is one), and
`calculateRemainingFlags`. In the embedding an index out of range makes the
operation return nothing, so no grid access leaves `[0, Height)` x `[0, Width)`. -/
theorem operations_total (m : MineSweeperModel) (h : ReachableWH m) :
    InBounds m m.CursorX m.CursorY ∧
    (∀ msg, ∃ m' cmd, Update m msg = some (m', cmd)) ∧
    (∀ x y, InBounds m x y →
      (∃ r, Open m x y = some r) ∧ (∃ r, openCell (openFuel m) m x y = some r) ∧
      (∃ r, ToggleFlag m x y = some r) ∧ (∃ c, countMines m x y = some c)) ∧
    (∃ r, calculateRemainingFlags m = some r) := by
  obtain ⟨hwf, -, hcur⟩ := ReachableWH_inv h
  refine ⟨hcur, fun msg => Update_total m msg hwf hcur, ?_, calculateRemainingFlags_total m hwf⟩
  intro x y hb
  refine ⟨Open_total m x y hwf hb, ?_, ToggleFlag_total m x y hwf hb,
    ⟨_, countMines_eq_sum m hwf x y⟩⟩
  obtain ⟨r, hr, -⟩ := openCell_fuel_enough m x y hwf hb (openFuel m) (le_refl _)
  exact ⟨r, hr⟩

theorem operations_total_witness :
    ReachableWH right21 ∧
    (InBounds right21 right21.CursorX right21.CursorY ∧
    (∀ msg, ∃ m' cmd, Update right21 msg = some (m', cmd)) ∧
    (∀ x y, InBounds right21 x y →
      (∃ r, Open right21 x y = some r) ∧
      (∃ r, openCell (openFuel right21) right21 x y = some r) ∧
      (∃ r, ToggleFlag right21 x y = some r) ∧ (∃ c, countMines right21 x y = some c)) ∧
    (∃ r, calculateRemainingFlags right21 = some r)) :=
  ⟨ReachableWH_right21, operations_total right21 ReachableWH_right21⟩

/-! ## The invariant of a game with valid parameters -/

theorem InitModel_GameInv (draws : List (Nat × Nat)) (w h n : Int) (m : MineSweeperModel)
    (hw : 0 < w) (hh : 0 < h) (hn0 : 0 ≤ n) (hinit : InitModel draws w h n = some m) :
    GameInv m := by
  have hplace : ∃ m1, placeMines draws (emptyModel w h n) = some m1 := by
    unfold InitModel at hinit
    rw [if_neg (by omega), if_neg (by omega)] at hinit
    cases hp : placeMines draws (emptyModel w h n) with
    | none => simp [hp] at hinit
    | some m1 => exact ⟨m1, rfl⟩
  obtain ⟨m1, hp⟩ := hplace
  obtain ⟨b, hi, hwf, -, hc1, hw1, hh1, hmine, hcnt⟩ :=
    InitModel_of_placeMines draws w h n hw hh hn0 m1 hp
  rw [hi] at hinit
  cases hinit
  have hmine' : ∀ x y, isMine { emptyModel w h n with Board := b } x y ↔ isMine m1 x y := hmine
  have hcells : cells { emptyModel w h n with Board := b } = cells m1 := by
    unfold cells
    rw [hw1, hh1]
    rfl
  have hsame : mineCount { emptyModel w h n with Board := b } = mineCount m1 := by
    unfold mineCount mineCells
    rw [hcells]
    exact congrArg Finset.card (Finset.filter_congr (fun c _ => hmine _ _))
  have hnoflag : ∀ x y, ¬ isFlagged { emptyModel w h n with Board := b } x y := by
    intro x y hf
    have := getCell_replicate _ _ false true y x hf
    cases this
  have hnoopen : ∀ x y, ¬ isOpen { emptyModel w h n with Board := b } x y := by
    intro x y ho
    have := getCell_replicate _ _ false true y x ho
    cases this
  refine ⟨hwf, fun x y _ ho => absurd ho (hnoopen x y), ?_, ?_, ?_, ?_, ?_⟩
  · intro x y hb hnm
    have hb1 : InBounds m1 x y := by
      unfold InBounds at hb ⊢
      rw [hw1, hh1]
      exact hb
    rw [adjacentMines_congr m1 { emptyModel w h n with Board := b } hw1.symm hh1.symm hmine']
    exact hcnt x y hb1 (fun hm => hnm ((hmine' x y).mpr hm))
  · rw [hsame]
    exact hc1
  · intro hwin
    cases hwin
  · intro hn1 hamf
    exfalso
    have hpos : 0 < (mineCells { emptyModel w h n with Board := b }).card := by
      have h1 : (mineCount { emptyModel w h n with Board := b } : Int) = n := by
        rw [hsame]
        exact hc1
      unfold mineCount at h1
      have hn1' : 1 ≤ n := hn1
      omega
    obtain ⟨c, hc⟩ := Finset.card_pos.mp hpos
    unfold mineCells at hc
    rw [Finset.mem_filter] at hc
    exact hnoflag _ _ (hamf _ _ (inBounds_of_mem_cells hc.1) hc.2)
  · intro x y _ ho
    exact absurd ho (hnoopen x y)

theorem Update_GameInv (m : MineSweeperModel) (msg : Msg) (m' : MineSweeperModel) (cmd : Cmd)
    (h : Update m msg = some (m', cmd)) (hinv : GameInv m) : GameInv m' := by
  obtain ⟨hwf, hcl, hcc, hmc, hwin, hall, hmo⟩ := hinv
  rcases Update_cases m msg m' cmd h with ⟨cx, cy, rfl⟩ | ⟨-, hopen⟩ | ⟨-, m1, htf, hcase⟩
  · exact ⟨hwf, hcl, hcc, hmc, hwin, hall, hmo⟩
  · cases hv : getCell m.Board m.CursorY m.CursorX with
    | none =>
      unfold Open at hopen
      simp [hv] at hopen
    | some v =>
      have hb : InBounds m m.CursorX m.CursorY := inBounds_of_getCell hwf.1 hv
      by_cases hm : isMine m m.CursorX m.CursorY
      · rw [Open_of_mine m _ _ hm] at hopen
        cases hopen
        exact ⟨hwf, hcl, hcc, hmc, hwin, hall, hmo⟩
      · obtain ⟨m2, h2, hp⟩ := Open_spec m _ _ hwf hb hm
        rw [h2] at hopen
        cases hopen
        have hcl' := OpenPost_closed hcl hp
        obtain ⟨hg, -, hsound, -⟩ := hp
        obtain ⟨⟨o, rfl, hd⟩, hmono⟩ := hg
        refine ⟨⟨hwf.1, hwf.2.1, hd⟩, hcl', hcc, hmc, ?_, hall, ?_⟩
        · intro hw
          exact ⟨fun x y hxy => hmono x y ((hwin hw).1 x y hxy), (hwin hw).2⟩
        · intro x y hmine hop
          by_cases hom : isOpen m x y
          · exact hmo x y hmine hom
          · exact absurd hmine (Reach_not_mine hcc (hsound x y hop hom) hm)
  · cases ho : getCell m.Opened m.CursorY m.CursorX with
    | none =>
      unfold ToggleFlag at htf
      simp [ho] at htf
    | some b =>
      cases b with
      | true =>
        rw [ToggleFlag_of_opened m _ _ ho] at htf
        cases htf
        rcases hcase with ⟨-, rfl⟩ | ⟨hw, hoa⟩
        · exact ⟨hwf, hcl, hcc, hmc, hwin, hall, hmo⟩
        · obtain ⟨o, ho', hd, hao⟩ := openAll_spec m hwf
          rw [ho'] at hoa
          cases hoa
          exact ⟨⟨hwf.1, hwf.2.1, hd⟩, fun x y _ _ _ x2 y2 hb2 _ => hao x2 y2 hb2, hcc, hmc,
            fun _ => ⟨fun x y hxy => hao x y hxy, (hwin hw).2⟩, hall, fun _ _ _ _ => hw⟩
      | false =>
        have hnw : m.IsWin = false := by
          cases hw : m.IsWin with
          | false => rfl
          | true =>
            have := (hwin hw).1 _ _ (inBounds_of_getCell hwf.2.2 ho)
            unfold isOpen at this
            rw [ho] at this
            cases this
        obtain ⟨f, fl, -, -, hwf1, htf'⟩ := ToggleFlag_unopened m _ _ hwf ho
        rw [htf'] at htf
        cases htf
        have key : ((flaggedMines { m with Flagged := fl }).card : Int) = m.NumberOfMines ↔
            AllMinesFlagged { m with Flagged := fl } := by
          rw [← hmc]
          have hmc' : mineCount m = mineCount { m with Flagged := fl } := rfl
          rw [hmc']
          unfold AllMinesFlagged
          rw [← card_flaggedMines_eq_iff]
          exact Nat.cast_inj
        rcases hcase with ⟨hw, rfl⟩ | ⟨hw, hoa⟩
        · simp only [hnw, Bool.false_or, decide_eq_false_iff_not] at hw
          refine ⟨hwf1, hcl, hcc, hmc, ?_, ?_, ?_⟩
          · intro hw'
            simp only [hnw, Bool.false_or, decide_eq_true_eq] at hw'
            exact absurd hw' hw
          · intro _ hamf
            exact absurd (key.mpr hamf) hw
          · intro x y hmine hop
            have := hmo x y hmine hop
            rw [hnw] at this
            cases this
        · simp only [hnw, Bool.false_or, decide_eq_true_eq] at hw
          obtain ⟨o, ho', hd, hao⟩ := openAll_spec _
            (show WF { m with
              Flagged := fl
              IsWin := m.IsWin ||
                decide (((flaggedMines { m with Flagged := fl }).card : Int) = m.NumberOfMines) }
              from hwf1)
          rw [ho'] at hoa
          cases hoa
          have hw' : (m.IsWin ||
              decide (((flaggedMines { m with Flagged := fl }).card : Int) = m.NumberOfMines))
              = true := by
            simp only [hnw, Bool.false_or, decide_eq_true_eq]
            exact hw
          exact ⟨⟨hwf.1, hwf1.2.1, hd⟩, fun x y _ _ _ x2 y2 hb2 _ => hao x2 y2 hb2, hcc, hmc,
            fun _ => ⟨fun x y hxy => hao x y hxy, key.mp hw⟩, fun _ _ => hw',
            fun _ _ _ _ => hw'⟩

/-- Every state of a game with valid parameters satisfies `GameInv`. -/
theorem Reachable_GameInv {m : MineSweeperModel} (h : Reachable m) : GameInv m := by
  induction h with
  | init draws w h n m hw hh hn0 _ hinit => exact InitModel_GameInv draws w h n m hw hh hn0 hinit
  | step m msg m' cmd _ hupd ih => exact Update_GameInv m msg m' cmd hupd ih

/-! ## Status, opened mines and the win condition -/

theorem Reachable_zero11 : Reachable zero11 :=
  Reachable.init [] 1 1 0 zero11 (by decide) (by decide) (by decide) (by decide) (by decide)

/-- C11, refuted: the state `won11` is reachable and Won; the reveal key, with the
cursor on the opened mine, makes `Update` return a state whose status is Lost. -/
theorem won_then_lost :
    Reachable won11 ∧ status won11 = Status.Won ∧
    Update won11 (Msg.key " ") = some ({ won11 with IsGameOver := true }, Cmd.quit) ∧
    status { won11 with IsGameOver := true } = Status.Lost :=
  ⟨Reachable_won11, by decide, by decide, by decide⟩

/-- C11, amended: in every state of a game `Update` returns for every message; a
Lost status stays Lost, and a Won status never goes back to InProgress: `IsWin` is
still true after the step, and the status is Won, or Lost when the message is the
reveal key and the cell under the cursor is a mine. -/
theorem status_after_step (m : MineSweeperModel) (msg : Msg) (hr : Reachable m) :
    (∃ m' cmd, Update m msg = some (m', cmd)) ∧
    ∀ m' cmd, Update m msg = some (m', cmd) →
      (status m = Status.Lost → status m' = Status.Lost) ∧
      (status m = Status.Won → m'.IsWin = true ∧
        (status m' = Status.Won ∨ status m' = Status.Lost) ∧
        (status m' = Status.Lost ↔
          msg = Msg.key KeySpaceString ∧ isMine m m.CursorX m.CursorY)) := by
  obtain ⟨hwf, -, hcur⟩ := ReachableWH_inv (Reachable_toWH hr)
  refine ⟨Update_total m msg hwf hcur, ?_⟩
  intro m' cmd h
  obtain ⟨-, -, -, -, hwin, hgo⟩ := Update_frame m msg m' cmd h
  unfold status
  constructor
  · intro hl
    have hg : m.IsGameOver = true := by
      by_contra hne
      rw [if_neg hne] at hl
      split at hl <;> cases hl
    rw [if_pos (hgo.mpr (Or.inl hg))]
  · intro hwon
    have hg : ¬ m.IsGameOver = true := by
      intro hg
      rw [if_pos hg] at hwon
      cases hwon
    rw [if_neg hg] at hwon
    have hw : m.IsWin = true := by
      by_contra hne
      rw [if_neg hne] at hwon
      cases hwon
    have hw' := hwin hw
    refine ⟨hw', ?_, ?_⟩
    · by_cases hg' : m'.IsGameOver = true
      · right
        rw [if_pos hg']
      · left
        rw [if_neg hg', if_pos hw']
    · constructor
      · intro hl
        have hg' : m'.IsGameOver = true := by
          by_contra hne
          rw [if_neg hne, if_pos hw'] at hl
          cases hl
        rcases hgo.mp hg' with h1 | h1
        · exact absurd h1 hg
        · exact h1
      · intro hsp
        rw [if_pos (hgo.mpr (Or.inr hsp))]

theorem status_after_step_witness :
    Reachable won11 ∧
    ((∃ m' cmd, Update won11 (Msg.key "f") = some (m', cmd)) ∧
    ∀ m' cmd, Update won11 (Msg.key "f") = some (m', cmd) →
      (status won11 = Status.Lost → status m' = Status.Lost) ∧
      (status won11 = Status.Won → m'.IsWin = true ∧
        (status m' = Status.Won ∨ status m' = Status.Lost) ∧
        (status m' = Status.Lost ↔
          Msg.key "f" = Msg.key KeySpaceString ∧ isMine won11 won11.CursorX won11.CursorY))) :=
  ⟨Reachable_won11, status_after_step won11 (Msg.key "f") Reachable_won11⟩

/-- C13, refuted: in the reachable state `won11` the mine cell `(0, 0)` is opened
while `IsGameOver` is false. -/
theorem opened_mine_not_lost :
    Reachable won11 ∧ isMine won11 0 0 ∧ isOpen won11 0 0 ∧ won11.IsGameOver = false :=
  ⟨Reachable_won11, by decide, by decide, by decide⟩

/-- C13, amended: in every state of a game a mine cell is opened only if the game
has been won: if the cell holds the mine value and is opened then `IsWin` is true. -/
theorem opened_mine_won (m : MineSweeperModel) (x y : Int) (hr : Reachable m)
    (hmine : isMine m x y) (ho : isOpen m x y) : m.IsWin = true :=
  (Reachable_GameInv hr).2.2.2.2.2.2 x y hmine ho

theorem opened_mine_won_witness :
    Reachable won11 ∧ isMine won11 0 0 ∧ isOpen won11 0 0 ∧ won11.IsWin = true :=
  ⟨Reachable_won11, by decide, by decide,
    opened_mine_won won11 0 0 Reachable_won11 (by decide) (by decide)⟩

/-- C14, refuted: the 1x1 game constructed with no mine is not won, although every
mine cell (there is none) is flagged. -/
theorem no_mine_not_won :
    Reachable zero11 ∧ zero11.IsWin = false ∧
    (∀ x y, InBounds zero11 x y → isMine zero11 x y → isFlagged zero11 x y) := by
  refine ⟨Reachable_zero11, by decide, ?_⟩
  intro x y hb hm
  have hx : x = 0 := by
    have h1 := hb.1
    have h2 : x < 1 := hb.2.1
    omega
  have hy : y = 0 := by
    have h1 := hb.2.2.1
    have h2 : y < 1 := hb.2.2.2
    omega
  subst hx
  subst hy
  exact absurd hm (by decide)

/-- C14, amended: in every state of a game a true `IsWin` implies that every mine
cell is flagged, and when the game has at least one mine the converse holds too:
`IsWin` is true exactly when every mine cell is flagged. -/
theorem win_iff_all_mines_flagged (m : MineSweeperModel) (hr : Reachable m) :
    (m.IsWin = true → ∀ x y, InBounds m x y → isMine m x y → isFlagged m x y) ∧
    (1 ≤ m.NumberOfMines →
      (m.IsWin = true ↔ ∀ x y, InBounds m x y → isMine m x y → isFlagged m x y)) := by
  obtain ⟨-, -, -, -, hwin, hall, -⟩ := Reachable_GameInv hr
  exact ⟨fun hw => (hwin hw).2, fun hn => ⟨fun hw => (hwin hw).2, fun hf => hall hn hf⟩⟩

theorem win_iff_all_mines_flagged_witness :
    Reachable won11 ∧ (1 : Int) ≤ won11.NumberOfMines ∧
    ((won11.IsWin = true →
        ∀ x y, InBounds won11 x y → isMine won11 x y → isFlagged won11 x y) ∧
    (1 ≤ won11.NumberOfMines →
      (won11.IsWin = true ↔
        ∀ x y, InBounds won11 x y → isMine won11 x y → isFlagged won11 x y))) :=
  ⟨Reachable_won11, by decide, win_iff_all_mines_flagged won11 Reachable_won11⟩

/-! ## After a win -/

theorem Update_flag_key (m : MineSweeperModel) :
    Update m (Msg.key "f") =
      (ToggleFlag m m.CursorX m.CursorY).bind (fun m1 =>
        if m1.IsWin then (openAll m1).bind (fun m2 => some (m2, Cmd.nil))
        else some (m1, Cmd.nil)) := by
  simp [Update, KeySpaceString]

theorem Frozen_step (m1 s : MineSweeperModel) (msg : Msg) (s' : MineSweeperModel) (cmd : Cmd)
    (h : Update s msg = some (s', cmd)) (hf : Frozen m1 s) : Frozen m1 s' := by
  have hcur' := Update_cursor s msg s' cmd h hf.2.2.1
  obtain ⟨hwf, hao, hcur, hF, hH, hW, hN⟩ := hf
  rcases Update_cases s msg s' cmd h with ⟨cx, cy, rfl⟩ | ⟨-, hopen⟩ | ⟨-, m0, htf, hcase⟩
  · exact ⟨hwf, hao, hcur', hF, hH, hW, hN⟩
  · by_cases hm : isMine s s.CursorX s.CursorY
    · rw [Open_of_mine s _ _ hm] at hopen
      cases hopen
      exact ⟨hwf, hao, hcur, hF, hH, hW, hN⟩
    · obtain ⟨m2, h2, hg, -⟩ := Open_spec s _ _ hwf hcur hm
      rw [h2] at hopen
      cases hopen
      obtain ⟨⟨o, rfl, hd⟩, hmono⟩ := hg
      exact ⟨⟨hwf.1, hwf.2.1, hd⟩, fun x y hb => hmono x y (hao x y hb), hcur, hF, hH, hW, hN⟩
  · rw [ToggleFlag_of_opened s _ _ (hao _ _ hcur)] at htf
    cases htf
    rcases hcase with ⟨-, rfl⟩ | ⟨-, hoa⟩
    · exact ⟨hwf, hao, hcur, hF, hH, hW, hN⟩
    · obtain ⟨o, ho, hd, hall⟩ := openAll_spec s hwf
      rw [ho] at hoa
      cases hoa
      exact ⟨⟨hwf.1, hwf.2.1, hd⟩, fun x y hb => hall x y hb, hcur, hF, hH, hW, hN⟩

theorem Frozen_run (m1 : MineSweeperModel) (msgs : List Msg) :
    ∀ s, Frozen m1 s → ∃ s', runUpdates s msgs = some s' ∧ Frozen m1 s' := by
  induction msgs with
  | nil =>
    intro s hs
    exact ⟨s, rfl, hs⟩
  | cons msg rest ih =>
    intro s hs
    obtain ⟨s1, cmd, h1⟩ := Update_total s msg hs.1 hs.2.2.1
    obtain ⟨s', h2, hs'⟩ := ih s1 (Frozen_step m1 s msg s1 cmd h1 hs)
    refine ⟨s', ?_, hs'⟩
    unfold runUpdates at h2 ⊢
    rw [List.foldlM_cons, h1]
    exact h2

theorem calculateRemainingFlags_congr (m m' : MineSweeperModel) (hF : m'.Flagged = m.Flagged)
    (hH : m'.Height = m.Height) (hW : m'.Width = m.Width)
    (hN : m'.NumberOfMines = m.NumberOfMines) :
    calculateRemainingFlags m' = calculateRemainingFlags m := by
  unfold calculateRemainingFlags
  rw [hF, hH, hW, hN]

/-- C20: when `Update` handles the flag key on a well-formed state and returns a
state with `IsWin` true, every cell of the grid is opened in that state, and every
sequence of messages given to `Update` from then on runs to a state with the same
Flagged grid and the same value of `calculateRemainingFlags`. -/
theorem win_freezes_flags (m m1 : MineSweeperModel) (cmd : Cmd) (hwf : WF m)
    (h : Update m (Msg.key "f") = some (m1, cmd)) (hw : m1.IsWin = true) :
    (∀ x y, InBounds m1 x y → isOpen m1 x y) ∧
    ∀ msgs, ∃ m2, runUpdates m1 msgs = some m2 ∧ m2.Flagged = m1.Flagged ∧
      calculateRemainingFlags m2 = calculateRemainingFlags m1 := by
  have hfrozen : Frozen m1 m1 := by
    rw [Update_flag_key] at h
    cases htf : ToggleFlag m m.CursorX m.CursorY with
    | none => simp [htf] at h
    | some m0 =>
      obtain ⟨fl, w, hm0, hfl⟩ := ToggleFlag_frame m _ _ hwf m0 htf
      have hcur : InBounds m m.CursorX m.CursorY := by
        cases ho : getCell m.Opened m.CursorY m.CursorX with
        | none =>
          unfold ToggleFlag at htf
          simp [ho] at htf
        | some b => exact inBounds_of_getCell hwf.2.2 ho
      subst hm0
      have hwf0 : WF { m with Flagged := fl, IsWin := w } := ⟨hwf.1, hfl, hwf.2.2⟩
      simp only [htf, Option.some_bind] at h
      split at h
      · obtain ⟨o, ho, hd, hall⟩ := openAll_spec _ hwf0
        rw [ho] at h
        simp only [Option.some_bind, Option.some.injEq, Prod.mk.injEq] at h
        obtain ⟨rfl, -⟩ := h
        exact ⟨⟨hwf.1, hfl, hd⟩, fun x y hb => hall x y hb, hcur, rfl, rfl, rfl, rfl⟩
      · rename_i hnw
        simp only [Option.some.injEq, Prod.mk.injEq] at h
        obtain ⟨rfl, -⟩ := h
        exact absurd hw hnw
  refine ⟨hfrozen.2.1, ?_⟩
  intro msgs
  obtain ⟨m2, hrun, -, -, -, hF, hH, hW, hN⟩ := Frozen_run m1 msgs m1 hfrozen
  exact ⟨m2, hrun, hF, calculateRemainingFlags_congr m1 m2 hF hH hW hN⟩

theorem win_freezes_flags_witness :
    WF { emptyModel 1 1 1 with Board := [[-1]] } ∧
    Update { emptyModel 1 1 1 with Board := [[-1]] } (Msg.key "f") = some (won11, Cmd.nil) ∧
    won11.IsWin = true ∧
    ((∀ x y, InBounds won11 x y → isOpen won11 x y) ∧
    ∀ msgs, ∃ m2, runUpdates won11 msgs = some m2 ∧ m2.Flagged = won11.Flagged ∧
      calculateRemainingFlags m2 = calculateRemainingFlags won11) :=
  ⟨by decide, by decide, by decide,
    win_freezes_flags { emptyModel 1 1 1 with Board := [[-1]] } won11 Cmd.nil (by decide)
      (by decide) (by decide)⟩

end Minesweeper
